import Mathlib

/-!
Shallow embedding of the `not-so-fast` validation library core
(`not-so-fast/src/lib.rs`): the `ValidationError` leaf type, the
`ValidationNode` error tree with its combinators (`ok`, `error`,
`error_if`, `errors`, `field`, `item`, `merge`, `first`, ...), the text
renderer (`Display for ValidationNode`, `fmt_path`, `fmt_path_element`,
`fmt_error`) and the serde serializer (`serialize_elements`).

Rust `BTreeMap<K, V>` values are embedded as association lists sorted
strictly ascending by key (the B-tree representation invariant); the
entry API (`Entry::Vacant` / `Entry::Occupied`) becomes an ordered
insert-or-merge on that list. Machine strings are Lean `String`s;
`usize` indices are `Nat`.
-/

namespace NotSoFast

/-- Lowercase hexadecimal digits of `n`, as printed by Rust's
`escape_unicode` (`{:x}`): at least one digit, no leading zeros. -/
def hexLower (n : Nat) : String :=
  String.mk (Nat.toDigits 16 n)

/-- Model of Rust `char::escape_default` (also applied char-by-char by
`str::escape_default`): `\t`, `\r`, `\n`, backslash and both quote
characters get a backslash escape, printable ASCII (0x20..=0x7e) is kept
verbatim, and everything else becomes `\u{...}` with lowercase hex. -/
def charEscapeDefault (c : Char) : String :=
  if c = '\t' then "\\t"
  else if c = '\r' then "\\r"
  else if c = '\n' then "\\n"
  else if c = '\\' then "\\\\"
  else if c = '\'' then "\\'"
  else if c = '"' then "\\\""
  else if 0x20 ≤ c.toNat ∧ c.toNat ≤ 0x7e then String.singleton c
  else "\\u\x7b" ++ hexLower c.toNat ++ "\x7d"

/-- Model of Rust `str::escape_default`: escape every char. -/
def strEscapeDefault (s : String) : String :=
  String.join (s.data.map charEscapeDefault)

/-- Parameter value stored in `ValidationError` (Rust enum `ParamValue`).
The floating-point variants `F32`/`F64` of the source are outside this
shallow embedding; signed integer variants carry `Int`, unsigned ones
carry `Nat`, which print identically to the Rust originals. -/
inductive ParamValue where
  | Bool (value : Bool)
  | I8 (value : Int)
  | I16 (value : Int)
  | I32 (value : Int)
  | I64 (value : Int)
  | I128 (value : Int)
  | U8 (value : Nat)
  | U16 (value : Nat)
  | U32 (value : Nat)
  | U64 (value : Nat)
  | U128 (value : Nat)
  | Usize (value : Nat)
  | Char (value : Char)
  | String (value : String)
  | Raw (value : String)
deriving DecidableEq

/-- Model of `impl Display for ParamValue`: numbers and booleans print
with `write!("{}", value)` (decimal / `true` / `false`), `Char` prints
single-quoted through `escape_default`, `String` double-quoted through
`escape_default`, `Raw` verbatim. -/
def renderParamValue : ParamValue → String
  | .Bool value => toString value
  | .I8 value => toString value
  | .I16 value => toString value
  | .I32 value => toString value
  | .I64 value => toString value
  | .I128 value => toString value
  | .U8 value => toString value
  | .U16 value => toString value
  | .U32 value => toString value
  | .U64 value => toString value
  | .U128 value => toString value
  | .Usize value => toString value
  | .Char value => "'" ++ charEscapeDefault value ++ "'"
  | .String value => "\"" ++ strEscapeDefault value ++ "\""
  | .Raw value => value

/-- Rust struct `ValidationError`: code, optional message, and a
`BTreeMap` of params embedded as a key-sorted association list. -/
structure ValidationError where
  code : String
  message : Option String
  params : List (String × ParamValue)
deriving DecidableEq

/-- `BTreeMap::insert` on the sorted-association-list representation:
place the pair at its ordered position; on an existing key the value is
replaced (and the stored key kept). -/
def insertParam : List (String × ParamValue) → String → ParamValue →
    List (String × ParamValue)
  | [], key, value => [(key, value)]
  | (k, v) :: rest, key, value =>
    if key < k then (key, value) :: (k, v) :: rest
    else if key = k then (k, value) :: rest
    else (k, v) :: insertParam rest key value

/-- `ValidationError::with_code`. -/
def ValidationError.with_code (code : String) : ValidationError :=
  { code := code, message := none, params := [] }

/-- `ValidationError::and_message`: last message wins. -/
def ValidationError.and_message (e : ValidationError) (message : String) :
    ValidationError :=
  { e with message := some message }

/-- `ValidationError::and_param`: `BTreeMap` insert, last value wins. -/
def ValidationError.and_param (e : ValidationError) (key : String)
    (value : ParamValue) : ValidationError :=
  { e with params := insertParam e.params key value }

/-- Rust struct `ValidationNode`: direct errors, field children
(`BTreeMap<Cow<str>, ValidationNode>`), item children
(`BTreeMap<usize, ValidationNode>`), both maps embedded as key-sorted
association lists. -/
inductive ValidationNode where
  | mk (errors : List ValidationError)
       (fields : List (String × ValidationNode))
       (items : List (Nat × ValidationNode))

/-- The `errors` field of a node. -/
def ValidationNode.errors : ValidationNode → List ValidationError
  | .mk e _ _ => e

/-- The `fields` field of a node. -/
def ValidationNode.fields : ValidationNode → List (String × ValidationNode)
  | .mk _ f _ => f

/-- The `items` field of a node. -/
def ValidationNode.items : ValidationNode → List (Nat × ValidationNode)
  | .mk _ _ i => i

/-- `ValidationNode::ok`. -/
def ValidationNode.ok : ValidationNode := .mk [] [] []

/-- `ValidationNode::is_ok`: no direct errors, no fields, no items. -/
def ValidationNode.is_ok (n : ValidationNode) : Bool :=
  n.errors.isEmpty && n.fields.isEmpty && n.items.isEmpty

/-- `ValidationNode::is_err`. -/
def ValidationNode.is_err (n : ValidationNode) : Bool :=
  !n.is_ok

/-- `ValidationNode::result`. -/
def ValidationNode.result (n : ValidationNode) : Except ValidationNode Unit :=
  if n.is_ok then .ok () else .error n

mutual

/-- `ValidationNode::merge` / `merge_in_place`: extend `self.errors` with
`other.errors`, then fold each of `other`'s field and item entries into
`self`'s maps through the entry API. -/
def mergeNode : ValidationNode → ValidationNode → ValidationNode
  | .mk e1 f1 i1, .mk e2 f2 i2 =>
    .mk (e1 ++ e2) (mergeFieldsInto f1 f2) (mergeItemsInto i1 i2)
termination_by a b => (sizeOf b, 0, 0)

/-- The `for (key, value) in other.fields` loop of `merge_in_place`. -/
def mergeFieldsInto : List (String × ValidationNode) →
    List (String × ValidationNode) → List (String × ValidationNode)
  | acc, [] => acc
  | acc, (k, v) :: rest => mergeFieldsInto (insertField acc k v) rest
termination_by acc l => (sizeOf l, 1, 0)

/-- The `for (key, value) in other.items` loop of `merge_in_place`. -/
def mergeItemsInto : List (Nat × ValidationNode) →
    List (Nat × ValidationNode) → List (Nat × ValidationNode)
  | acc, [] => acc
  | acc, (k, v) :: rest => mergeItemsInto (insertItem acc k v) rest
termination_by acc l => (sizeOf l, 1, 0)

/-- `self.fields.entry(key)`: `Vacant` inserts at the ordered position,
`Occupied` merges the incoming subtree into the existing one. -/
def insertField : List (String × ValidationNode) → String → ValidationNode →
    List (String × ValidationNode)
  | [], k, v => [(k, v)]
  | (k', v') :: rest, k, v =>
    if k < k' then (k, v) :: (k', v') :: rest
    else if k = k' then (k', mergeNode v' v) :: rest
    else (k', v') :: insertField rest k v
termination_by l k v => (sizeOf v, 0, sizeOf l + 1)

/-- `self.items.entry(key)`: `Vacant` inserts at the ordered position,
`Occupied` merges the incoming subtree into the existing one. -/
def insertItem : List (Nat × ValidationNode) → Nat → ValidationNode →
    List (Nat × ValidationNode)
  | [], k, v => [(k, v)]
  | (k', v') :: rest, k, v =>
    if k < k' then (k, v) :: (k', v') :: rest
    else if k = k' then (k', mergeNode v' v) :: rest
    else (k', v') :: insertItem rest k v
termination_by l k v => (sizeOf v, 0, sizeOf l + 1)

end

/-- `ValidationNode::merge` (by-value wrapper over `merge_in_place`). -/
def ValidationNode.merge (n other : ValidationNode) : ValidationNode :=
  mergeNode n other

/-- `ValidationNode::error`. -/
def ValidationNode.error (e : ValidationError) : ValidationNode :=
  .mk [e] [] []

/-- `ValidationNode::and_error`: push one direct error. -/
def ValidationNode.and_error (n : ValidationNode) (e : ValidationError) :
    ValidationNode :=
  .mk (n.errors ++ [e]) n.fields n.items

/-- `ValidationNode::error_if`: build the single direct error from `f`
only when `condition` holds. -/
def ValidationNode.error_if (condition : Bool) (f : Unit → ValidationError) :
    ValidationNode :=
  .mk (if condition then [f ()] else []) [] []

/-- `ValidationNode::and_error_if`: push the error from `f` only when
`condition` holds. -/
def ValidationNode.and_error_if (n : ValidationNode) (condition : Bool)
    (f : Unit → ValidationError) : ValidationNode :=
  if condition then n.and_error (f ()) else n

/-- `ValidationNode::error_if` with the `FnOnce` closure embedded as an
explicit state transformer, so that the number of invocations of `f` is
observable in the final state. -/
def errorIfEff {σ : Type} (condition : Bool) (f : σ → ValidationError × σ)
    (s : σ) : ValidationNode × σ :=
  if condition then
    let (e, s') := f s
    (.mk [e] [] [], s')
  else (.mk [] [] [], s)

/-- `ValidationNode::and_error_if` with the `FnOnce` closure embedded as
an explicit state transformer. -/
def andErrorIfEff {σ : Type} (n : ValidationNode) (condition : Bool)
    (f : σ → ValidationError × σ) (s : σ) : ValidationNode × σ :=
  if condition then
    let (e, s') := f s
    (n.and_error e, s')
  else (n, s)

/-- `ValidationNode::errors`: collect an iterator of errors (named
`errorsOf` because `ValidationNode.errors` is the struct field). -/
def ValidationNode.errorsOf (errors : List ValidationError) : ValidationNode :=
  .mk errors [] []

/-- `ValidationNode::and_errors`: extend the direct errors. -/
def ValidationNode.and_errors (n : ValidationNode)
    (errors : List ValidationError) : ValidationNode :=
  .mk (n.errors ++ errors) n.fields n.items

/-- `ValidationNode::field`: a node with a single field child, except
that an ok child is never stored. -/
def ValidationNode.field (name : String) (validation_errors : ValidationNode) :
    ValidationNode :=
  .mk []
    (if !validation_errors.is_ok then [(name, validation_errors)] else [])
    []

/-- `ValidationNode::and_field`: attach a field child through the entry
API unless the child is ok. -/
def ValidationNode.and_field (n : ValidationNode) (name : String)
    (validation_errors : ValidationNode) : ValidationNode :=
  if !validation_errors.is_ok then
    .mk n.errors (insertField n.fields name validation_errors) n.items
  else n

/-- `ValidationNode::fields`: fold an iterator of key-value pairs,
attaching `f key value` under `toString key` whenever it is not ok
(named `fieldsOf` because `ValidationNode.fields` is the struct field). -/
def ValidationNode.fieldsOf {K V : Type} [ToString K]
    (iterator : List (K × V)) (f : K → V → ValidationNode) : ValidationNode :=
  iterator.foldl
    (fun acc kv =>
      let validation_errors := f kv.1 kv.2
      if !validation_errors.is_ok then
        acc.and_field (toString kv.1) validation_errors
      else acc)
    .ok

/-- `ValidationNode::and_fields`: merge in `fieldsOf`. -/
def ValidationNode.and_fields {K V : Type} [ToString K] (n : ValidationNode)
    (iterator : List (K × V)) (f : K → V → ValidationNode) : ValidationNode :=
  n.merge (ValidationNode.fieldsOf iterator f)

/-- `ValidationNode::item`: a node with a single item child, except that
an ok child is never stored. -/
def ValidationNode.item (index : Nat) (validation_errors : ValidationNode) :
    ValidationNode :=
  .mk [] []
    (if !validation_errors.is_ok then [(index, validation_errors)] else [])

/-- `ValidationNode::and_item`: attach an item child through the entry
API unless the child is ok. -/
def ValidationNode.and_item (n : ValidationNode) (index : Nat)
    (validation_errors : ValidationNode) : ValidationNode :=
  if !validation_errors.is_ok then
    .mk n.errors n.fields (insertItem n.items index validation_errors)
  else n

/-- `ValidationNode::items`: enumerate an iterator and `and_item` each
result (named `itemsOf` because `ValidationNode.items` is the struct
field). -/
def ValidationNode.itemsOf {T : Type} (items : List T)
    (f : Nat → T → ValidationNode) : ValidationNode :=
  items.enum.foldl (fun acc iv => acc.and_item iv.1 (f iv.1 iv.2)) .ok

/-- `ValidationNode::and_items`: merge in `itemsOf`. -/
def ValidationNode.and_items {T : Type} (n : ValidationNode) (items : List T)
    (f : Nat → T → ValidationNode) : ValidationNode :=
  n.merge (ValidationNode.itemsOf items f)

/-- `ValidationNode::first`: first direct error if any (drop the rest);
otherwise recurse into the first field entry if any; otherwise into the
first item entry if any; otherwise `ok`. -/
def ValidationNode.first : ValidationNode → ValidationNode
  | .mk (e :: _) _ _ => .mk [e] [] []
  | .mk [] ((k, v) :: _) _ => .mk [] [(k, ValidationNode.first v)] []
  | .mk [] [] ((i, v) :: _) => .mk [] [] [(i, ValidationNode.first v)]
  | .mk [] [] [] => .mk [] [] []

/-- Rust enum `PathElement` used by the renderer. -/
inductive PathElement where
  | Name (s : String)
  | Index (i : Nat)
deriving DecidableEq

/-- The character test of `fmt_path_element`:
`c.is_ascii_alphanumeric() || c == '_'`. -/
def isPlainPathChar (c : Char) : Bool :=
  (('0' ≤ c && c ≤ '9') || ('A' ≤ c && c ≤ 'Z') || ('a' ≤ c && c ≤ 'z'))
    || c = '_'

/-- `fmt_path_element`: a plain name (non-empty, only ASCII
alphanumerics and underscore) prints verbatim; any other name prints
double-quoted with each `"` escaped as `\"`; an index prints `[i]`. -/
def fmtPathElement : PathElement → String
  | .Name name =>
    if !name.isEmpty && name.data.all isPlainPathChar then name
    else
      "\"" ++
        String.join (name.data.map fun c =>
          if c = '"' then "\\\"" else String.singleton c) ++
      "\""
  | .Index index => "[" ++ toString index ++ "]"

/-- The indexed loop body of `fmt_path`: a name is always preceded by
`.`; an index is preceded by `.` only when it is element 0. -/
def fmtPathLoop : Nat → List PathElement → String
  | _, [] => ""
  | i, e :: rest =>
    (match e with
     | .Name _ => "." ++ fmtPathElement e
     | .Index _ => (if i = 0 then "." else "") ++ fmtPathElement e)
      ++ fmtPathLoop (i + 1) rest

/-- `fmt_path`: the empty path prints as `"."`, otherwise the elements
are printed left to right by `fmtPathLoop`. -/
def fmtPath (path : List PathElement) : String :=
  if path.isEmpty then "." else fmtPathLoop 0 path

/-- The enumerated parameter loop of `fmt_error`: `": "` before the
first parameter, `", "` before the others, each as `key=value`. -/
def fmtErrorParams : Nat → List (String × ParamValue) → String
  | _, [] => ""
  | i, (k, v) :: rest =>
    (if i ≠ 0 then ", " else ": ") ++ k ++ "=" ++ renderParamValue v ++
      fmtErrorParams (i + 1) rest

/-- `fmt_error`: code, then `": message"` when present, then params. -/
def fmtError (error : ValidationError) : String :=
  error.code ++
    (match error.message with
     | some message => ": " ++ message
     | none => "") ++
    fmtErrorParams 0 error.params

/-- `fmt_path_and_error`: path, `": "`, error description. -/
def fmtPathAndError (error : ValidationError) (path : List PathElement) :
    String :=
  fmtPath path ++ ": " ++ fmtError error

mutual

/-- `ValidationNode::display_fmt`: emit this node's direct errors (a
newline before every line except the very first of the whole tree, via
the `first_printed` flag), then the field subtrees, then the item
subtrees. Returns the emitted text and the updated flag. -/
def displayFmt : ValidationNode → List PathElement → Bool → String × Bool
  | .mk e fs its, path, first_printed =>
    let (s1, fp1) := displayErrorsLoop e path first_printed
    let (s2, fp2) := displayFieldsLoop fs path fp1
    let (s3, fp3) := displayItemsLoop its path fp2
    (s1 ++ s2 ++ s3, fp3)
termination_by n _ _ => sizeOf n

/-- The `for direct in self.errors` loop of `display_fmt`. -/
def displayErrorsLoop : List ValidationError → List PathElement → Bool →
    String × Bool
  | [], _, first_printed => ("", first_printed)
  | e :: rest, path, first_printed =>
    let line :=
      if first_printed then "\n" ++ fmtPathAndError e path
      else fmtPathAndError e path
    let (s, fp) := displayErrorsLoop rest path true
    (line ++ s, fp)
termination_by l _ _ => sizeOf l

/-- The `for field in self.fields` loop of `display_fmt`: push the name
on the path, recurse, pop. -/
def displayFieldsLoop : List (String × ValidationNode) → List PathElement →
    Bool → String × Bool
  | [], _, first_printed => ("", first_printed)
  | (k, v) :: rest, path, first_printed =>
    let (s, fp) := displayFmt v (path ++ [.Name k]) first_printed
    let (s', fp') := displayFieldsLoop rest path fp
    (s ++ s', fp')
termination_by l _ _ => sizeOf l

/-- The `for item in self.items` loop of `display_fmt`: push the index
on the path, recurse, pop. -/
def displayItemsLoop : List (Nat × ValidationNode) → List PathElement →
    Bool → String × Bool
  | [], _, first_printed => ("", first_printed)
  | (i, v) :: rest, path, first_printed =>
    let (s, fp) := displayFmt v (path ++ [.Index i]) first_printed
    let (s', fp') := displayItemsLoop rest path fp
    (s ++ s', fp')
termination_by l _ _ => sizeOf l

end

/-- `impl Display for ValidationNode`: run `display_fmt` from the empty
path with `first_printed = false`. -/
def display (n : ValidationNode) : String :=
  (displayFmt n [] false).1

mutual

/-- `ValidationNode::serialize_elements`: one `(path, description)` pair
per direct error — the buffer holds `fmt_path` output followed by
`fmt_error` output and is sliced at the boundary — then the field
subtrees, then the item subtrees. -/
def serializeElements : ValidationNode → List PathElement →
    List (String × String)
  | .mk e fs its, path =>
    serializeErrorsLoop e path ++
      serializeFieldsLoop fs path ++
      serializeItemsLoop its path
termination_by n _ => sizeOf n

/-- The `for direct in self.errors` loop of `serialize_elements`. -/
def serializeErrorsLoop : List ValidationError → List PathElement →
    List (String × String)
  | [], _ => []
  | e :: rest, path => (fmtPath path, fmtError e) :: serializeErrorsLoop rest path
termination_by l _ => sizeOf l

/-- The `for field in self.fields` loop of `serialize_elements`. -/
def serializeFieldsLoop : List (String × ValidationNode) →
    List PathElement → List (String × String)
  | [], _ => []
  | (k, v) :: rest, path =>
    serializeElements v (path ++ [.Name k]) ++ serializeFieldsLoop rest path
termination_by l _ => sizeOf l

/-- The `for item in self.items` loop of `serialize_elements`. -/
def serializeItemsLoop : List (Nat × ValidationNode) → List PathElement →
    List (String × String)
  | [], _ => []
  | (i, v) :: rest, path =>
    serializeElements v (path ++ [.Index i]) ++ serializeItemsLoop rest path
termination_by l _ => sizeOf l

end

/-- First-match lookup in an association list (`BTreeMap::get` on the
sorted representation, where first match is the only match); keys carry
the `BTreeMap` key order. -/
def lookupKV {K V : Type} [LinearOrder K] : List (K × V) → K → Option V
  | [], _ => none
  | (k', v) :: rest, k => if k = k' then some v else lookupKV rest k

/-- Adjacent keys strictly ascending: the `BTreeMap` representation
invariant on association lists. -/
def keysSortedB {K V : Type} [LinearOrder K] : List (K × V) → Bool
  | [] => true
  | [_] => true
  | a :: b :: rest => decide (a.1 < b.1) && keysSortedB (b :: rest)

mutual

/-- Well-formed tree: every `BTreeMap` in it (fields, items, and each
error's params) is in its sorted representation. This is the
representation invariant every tree built by the Rust library
satisfies. -/
def WFb : ValidationNode → Bool
  | .mk e fs its =>
    e.all (fun err => keysSortedB err.params) && keysSortedB fs &&
      keysSortedB its && WFbFields fs && WFbItems its
termination_by n => sizeOf n

/-- All field children well-formed. -/
def WFbFields : List (String × ValidationNode) → Bool
  | [] => true
  | (_, v) :: rest => WFb v && WFbFields rest
termination_by l => sizeOf l

/-- All item children well-formed. -/
def WFbItems : List (Nat × ValidationNode) → Bool
  | [] => true
  | (_, v) :: rest => WFb v && WFbItems rest
termination_by l => sizeOf l

end

mutual

/-- Pruned tree: no child stored under any field or item key, at any
depth, is ok. -/
def Prunedb : ValidationNode → Bool
  | .mk _ fs its => PrunedbFields fs && PrunedbItems its
termination_by n => sizeOf n

/-- All field children non-ok and pruned. -/
def PrunedbFields : List (String × ValidationNode) → Bool
  | [] => true
  | (_, v) :: rest => !v.is_ok && Prunedb v && PrunedbFields rest
termination_by l => sizeOf l

/-- All item children non-ok and pruned. -/
def PrunedbItems : List (Nat × ValidationNode) → Bool
  | [] => true
  | (_, v) :: rest => !v.is_ok && Prunedb v && PrunedbItems rest
termination_by l => sizeOf l

end

mutual

/-- Total number of direct errors in the whole tree. -/
def errorCount : ValidationNode → Nat
  | .mk e fs its => e.length + errorCountFields fs + errorCountItems its
termination_by n => sizeOf n

/-- Total number of direct errors under the field children. -/
def errorCountFields : List (String × ValidationNode) → Nat
  | [] => 0
  | (_, v) :: rest => errorCount v + errorCountFields rest
termination_by l => sizeOf l

/-- Total number of direct errors under the item children. -/
def errorCountItems : List (Nat × ValidationNode) → Nat
  | [] => 0
  | (_, v) :: rest => errorCount v + errorCountItems rest
termination_by l => sizeOf l

end

/-! ### Definitions modelled from the spec's words (for the
refinement-style claims): path syntax, error-line syntax, the list of
report lines in traversal order, and newline joining. -/

/-- Modelled from the spec: a field name is rendered verbatim iff
non-empty and all ASCII alphanumeric or underscore; otherwise
double-quoted with each internal `"` escaped as `\"` and nothing else
escaped. -/
def nameRenderSpec (s : String) : String :=
  if s ≠ "" ∧ ∀ c ∈ s.data, isPlainPathChar c then s
  else
    "\"" ++
      String.join (s.data.map fun c =>
        if c = '"' then "\\\"" else String.singleton c) ++
    "\""

/-- Modelled from the spec: one path step. A named step appends `.` then
the rendered name; an indexed step appends `[i]`, with a leading `.`
exactly when it is the very first path element. -/
def pathStepSpec (isFirst : Bool) : PathElement → String
  | .Name s => "." ++ nameRenderSpec s
  | .Index i => (if isFirst then "." else "") ++ "[" ++ toString i ++ "]"

/-- Modelled from the spec: the empty path renders as `"."`; otherwise
the steps concatenate left to right, outer to inner. -/
def pathSpec : List PathElement → String
  | [] => "."
  | e :: rest => pathStepSpec true e ++ String.join (rest.map (pathStepSpec false))

/-- Modelled from the spec: error description — the code, then
`": <message>"` if a message is present, then each parameter as
`<key>=<rendered-value>` with `": "` before the first and `", "` before
subsequent ones. -/
def errorDescSpec (e : ValidationError) : String :=
  e.code ++
    (match e.message with
     | some m => ": " ++ m
     | none => "") ++
    (match e.params with
     | [] => ""
     | p :: rest =>
       ": " ++ p.1 ++ "=" ++ renderParamValue p.2 ++
         String.join (rest.map fun q => ", " ++ q.1 ++ "=" ++ renderParamValue q.2))

mutual

/-- Modelled from the spec: the report lines of a tree in traversal
order — one line `<path>: <description>` per direct error of this node
first, then the lines of each field subtree, then of each item subtree,
depth-first in stored (key-ascending) order. -/
def linesSpec : ValidationNode → List PathElement → List String
  | .mk e fs its, path =>
    e.map (fun err => pathSpec path ++ ": " ++ errorDescSpec err) ++
      linesSpecFields fs path ++ linesSpecItems its path
termination_by n _ => sizeOf n

/-- Lines of the field subtrees, in stored order. -/
def linesSpecFields : List (String × ValidationNode) → List PathElement →
    List String
  | [], _ => []
  | (k, v) :: rest, path =>
    linesSpec v (path ++ [.Name k]) ++ linesSpecFields rest path
termination_by l _ => sizeOf l

/-- Lines of the item subtrees, in stored order. -/
def linesSpecItems : List (Nat × ValidationNode) → List PathElement →
    List String
  | [], _ => []
  | (i, v) :: rest, path =>
    linesSpec v (path ++ [.Index i]) ++ linesSpecItems rest path
termination_by l _ => sizeOf l

end

/-- Modelled from the spec: lines separated by a single newline, no
leading or trailing newline; the empty list gives the empty string. -/
def joinLines : List String → String
  | [] => ""
  | [l] => l
  | l :: l' :: rest => l ++ "\n" ++ joinLines (l' :: rest)

/-! ### Basic helpers: strong induction on node size, string
rearrangement, and the newline-threading accumulator of the display
renderer. -/

/-- Strong induction on `sizeOf` for the nested inductive node type. -/
theorem node_ind (motive : ValidationNode → Prop)
    (h : ∀ n, (∀ m : ValidationNode, sizeOf m < sizeOf n → motive m) → motive n) :
    ∀ n, motive n := by
  have key : ∀ k : Nat, ∀ n : ValidationNode, sizeOf n < k → motive n := by
    intro k
    induction k with
    | zero => intro n hn; omega
    | succ k ih => intro n _; exact h n (fun m hm => ih m (by omega))
  exact fun n => key (sizeOf n + 1) n (by omega)

theorem sizeOf_field_child {kv : String × ValidationNode}
    {e : List ValidationError} {fs : List (String × ValidationNode)}
    {its : List (Nat × ValidationNode)} (h : kv ∈ fs) :
    sizeOf kv.2 < sizeOf (ValidationNode.mk e fs its) := by
  have h1 : sizeOf kv < sizeOf fs := List.sizeOf_lt_of_mem h
  obtain ⟨k, v⟩ := kv
  simp only [ValidationNode.mk.sizeOf_spec]
  simp only [Prod.mk.sizeOf_spec] at h1
  omega

theorem sizeOf_item_child {kv : Nat × ValidationNode}
    {e : List ValidationError} {fs : List (String × ValidationNode)}
    {its : List (Nat × ValidationNode)} (h : kv ∈ its) :
    sizeOf kv.2 < sizeOf (ValidationNode.mk e fs its) := by
  have h1 : sizeOf kv < sizeOf its := List.sizeOf_lt_of_mem h
  obtain ⟨k, v⟩ := kv
  simp only [ValidationNode.mk.sizeOf_spec]
  simp only [Prod.mk.sizeOf_spec] at h1
  omega

theorem str_append_assoc (a b c : String) : a ++ b ++ c = a ++ (b ++ c) := by
  cases a; cases b; cases c
  show String.mk _ = String.mk _
  rw [List.append_assoc]

theorem str_empty_append (s : String) : "" ++ s = s := by
  cases s; rfl

theorem str_append_empty (s : String) : s ++ "" = s := by
  cases s
  show String.mk _ = String.mk _
  rw [List.append_nil]

/-- The text produced by a run of `display_fmt` that emits `lines` when
the `first_printed` flag starts at `fp`: a newline before every line,
except before the first when `fp` is false. -/
def emitStr : Bool → List String → String
  | _, [] => ""
  | fp, l :: rest => (if fp then "\n" ++ l else l) ++ emitStr true rest

theorem emitStr_append (fp : Bool) (l1 l2 : List String) :
    emitStr fp (l1 ++ l2) = emitStr fp l1 ++ emitStr (fp || !l1.isEmpty) l2 := by
  induction l1 generalizing fp with
  | nil => simp [emitStr, str_empty_append]
  | cons a t ih =>
    simp only [List.cons_append, emitStr, List.isEmpty_cons, str_append_assoc]
    rw [show (t.append l2) = t ++ l2 from rfl, ih true]
    simp

theorem joinLines_cons (b : String) (t : List String) :
    joinLines (b :: t) = b ++ emitStr true t := by
  induction t generalizing b with
  | nil => simp [joinLines, emitStr, str_append_empty]
  | cons c t'' ih =>
    simp only [joinLines, emitStr, str_append_assoc]
    rw [ih c]
    simp [str_append_assoc]

theorem joinLines_eq_emitStr (l : List String) : joinLines l = emitStr false l := by
  cases l with
  | nil => rfl
  | cons b t => rw [joinLines_cons]; simp [emitStr]

theorem isEmpty_append_bool {α : Type} (l1 l2 : List α) :
    (l1 ++ l2).isEmpty = (l1.isEmpty && l2.isEmpty) := by
  cases l1 <;> simp

theorem isEmpty_map_bool {α β : Type} (f : α → β) (l : List α) :
    (l.map f).isEmpty = l.isEmpty := by
  cases l <;> simp

theorem str_foldl_append (l : List String) (s : String) :
    l.foldl (· ++ ·) s = s ++ l.foldl (· ++ ·) "" := by
  induction l generalizing s with
  | nil => simp [str_append_empty]
  | cons b t ih =>
    simp only [List.foldl_cons]
    rw [ih (s ++ b), ih ("" ++ b), str_empty_append, str_append_assoc]

theorem str_join_cons (a : String) (l : List String) :
    String.join (a :: l) = a ++ String.join l := by
  show List.foldl (· ++ ·) "" (a :: l) = a ++ List.foldl (· ++ ·) "" l
  simp only [List.foldl_cons]
  rw [str_foldl_append l ("" ++ a), str_empty_append]

/-! ### The source renderer agrees with the spec-side rendering. -/

theorem fmtErrorParams_pos (l : List (String × ParamValue)) (i : Nat)
    (hi : i ≠ 0) :
    fmtErrorParams i l =
      String.join (l.map fun q => ", " ++ q.1 ++ "=" ++ renderParamValue q.2) := by
  induction l generalizing i with
  | nil => simp [fmtErrorParams, String.join]
  | cons p rest ih =>
    simp only [fmtErrorParams, if_pos hi, List.map_cons, str_join_cons]
    rw [ih (i + 1) (by omega)]

theorem fmtError_eq (e : ValidationError) : fmtError e = errorDescSpec e := by
  unfold fmtError errorDescSpec
  congr 1
  cases e.params with
  | nil => simp [fmtErrorParams]
  | cons p rest =>
    simp only [fmtErrorParams, if_neg (by simp : ¬ (0 : Nat) ≠ 0)]
    rw [fmtErrorParams_pos rest 1 (by omega)]

theorem fmtPathElement_name_eq (s : String) :
    fmtPathElement (.Name s) = nameRenderSpec s := by
  unfold fmtPathElement nameRenderSpec
  by_cases h : s ≠ "" ∧ ∀ c ∈ s.data, isPlainPathChar c
  · rw [if_pos h]
    have : (!s.isEmpty && s.data.all isPlainPathChar) = true := by
      obtain ⟨h1, h2⟩ := h
      have h1' : s.isEmpty = false := by
        rw [Bool.eq_false_iff]
        exact fun hc => h1 ((String.isEmpty_iff s).mp hc)
      simp only [h1', Bool.not_false, Bool.true_and, List.all_eq_true]
      exact h2
    simp [this]
  · rw [if_neg h]
    have : ¬ ((!s.isEmpty && s.data.all isPlainPathChar) = true) := by
      intro hc
      apply h
      simp only [Bool.and_eq_true, Bool.not_eq_true'] at hc
      obtain ⟨h1, h2⟩ := hc
      refine ⟨?_, by simpa [List.all_eq_true] using h2⟩
      intro he
      rw [← String.isEmpty_iff] at he
      rw [he] at h1
      exact absurd h1 (by simp)
    simp only [Bool.not_eq_true] at this
    simp [this]

theorem fmtPathLoop_pos (l : List PathElement) (i : Nat) (hi : i ≠ 0) :
    fmtPathLoop i l = String.join (l.map (pathStepSpec false)) := by
  induction l generalizing i with
  | nil => simp [fmtPathLoop, String.join]
  | cons e rest ih =>
    cases e with
    | Name s =>
      simp only [fmtPathLoop, List.map_cons, str_join_cons]
      rw [ih (i + 1) (by omega), fmtPathElement_name_eq]
      simp [pathStepSpec]
    | Index idx =>
      simp only [fmtPathLoop, List.map_cons, str_join_cons, if_neg hi]
      rw [ih (i + 1) (by omega)]
      simp [pathStepSpec, fmtPathElement, str_empty_append]

theorem fmtPath_eq (p : List PathElement) : fmtPath p = pathSpec p := by
  cases p with
  | nil => rfl
  | cons e rest =>
    unfold fmtPath pathSpec
    simp only [List.isEmpty_cons, if_neg (by simp : ¬ false = true)]
    cases e with
    | Name s =>
      simp only [fmtPathLoop]
      rw [fmtPathLoop_pos rest 1 (by omega), fmtPathElement_name_eq]
      simp [pathStepSpec]
    | Index idx =>
      simp only [fmtPathLoop, if_pos rfl]
      rw [fmtPathLoop_pos rest 1 (by omega)]
      simp only [pathStepSpec, fmtPathElement]
      simp only [if_true, str_append_assoc]

theorem fmtPathAndError_eq (e : ValidationError) (path : List PathElement) :
    fmtPathAndError e path = pathSpec path ++ ": " ++ errorDescSpec e := by
  unfold fmtPathAndError
  rw [fmtPath_eq, fmtError_eq]

/-! ### The display renderer emits exactly the spec-side lines. -/

theorem displayErrorsLoop_eq (e : List ValidationError)
    (path : List PathElement) (fp : Bool) :
    displayErrorsLoop e path fp =
      (emitStr fp (e.map fun err => pathSpec path ++ ": " ++ errorDescSpec err),
        fp || !e.isEmpty) := by
  induction e generalizing fp with
  | nil => simp [displayErrorsLoop, emitStr]
  | cons a t ih =>
    simp only [displayErrorsLoop, ih true, List.map_cons, emitStr,
      fmtPathAndError_eq, List.isEmpty_cons]
    simp

theorem displayFieldsLoop_eq (fs : List (String × ValidationNode))
    (H : ∀ kv ∈ fs, ∀ path fp, displayFmt kv.2 path fp =
      (emitStr fp (linesSpec kv.2 path), fp || !(linesSpec kv.2 path).isEmpty))
    (path : List PathElement) (fp : Bool) :
    displayFieldsLoop fs path fp =
      (emitStr fp (linesSpecFields fs path),
        fp || !(linesSpecFields fs path).isEmpty) := by
  induction fs generalizing fp with
  | nil => simp [displayFieldsLoop, linesSpecFields, emitStr]
  | cons kv rest ih =>
    obtain ⟨k, v⟩ := kv
    have hv := H (k, v) (by simp)
    have hrest := ih (fun kv hkv => H kv (by simp [hkv]))
    simp only [displayFieldsLoop, hv, hrest, linesSpecFields, emitStr_append,
      isEmpty_append_bool]
    simp [Bool.or_assoc]

theorem displayItemsLoop_eq (its : List (Nat × ValidationNode))
    (H : ∀ kv ∈ its, ∀ path fp, displayFmt kv.2 path fp =
      (emitStr fp (linesSpec kv.2 path), fp || !(linesSpec kv.2 path).isEmpty))
    (path : List PathElement) (fp : Bool) :
    displayItemsLoop its path fp =
      (emitStr fp (linesSpecItems its path),
        fp || !(linesSpecItems its path).isEmpty) := by
  induction its generalizing fp with
  | nil => simp [displayItemsLoop, linesSpecItems, emitStr]
  | cons kv rest ih =>
    obtain ⟨i, v⟩ := kv
    have hv := H (i, v) (by simp)
    have hrest := ih (fun kv hkv => H kv (by simp [hkv]))
    simp only [displayItemsLoop, hv, hrest, linesSpecItems, emitStr_append,
      isEmpty_append_bool]
    simp [Bool.or_assoc]

theorem displayFmt_eq (n : ValidationNode) :
    ∀ path fp, displayFmt n path fp =
      (emitStr fp (linesSpec n path), fp || !(linesSpec n path).isEmpty) := by
  induction n using node_ind with
  | _ n IH =>
    obtain ⟨e, fs, its⟩ := n
    intro path fp
    have Hf : ∀ kv ∈ fs, ∀ path fp, displayFmt kv.2 path fp =
        (emitStr fp (linesSpec kv.2 path), fp || !(linesSpec kv.2 path).isEmpty) :=
      fun kv hkv => IH kv.2 (sizeOf_field_child hkv)
    have Hi : ∀ kv ∈ its, ∀ path fp, displayFmt kv.2 path fp =
        (emitStr fp (linesSpec kv.2 path), fp || !(linesSpec kv.2 path).isEmpty) :=
      fun kv hkv => IH kv.2 (sizeOf_item_child hkv)
    simp only [displayFmt, displayErrorsLoop_eq, displayFieldsLoop_eq fs Hf,
      displayItemsLoop_eq its Hi, linesSpec, emitStr_append, isEmpty_append_bool,
      isEmpty_map_bool]
    simp [Bool.or_assoc, str_append_assoc]

/-- `Display for ValidationNode` produces exactly the spec-side lines
joined by single newlines. -/
theorem display_eq_joinLines (n : ValidationNode) :
    display n = joinLines (linesSpec n []) := by
  rw [display, displayFmt_eq, joinLines_eq_emitStr]

/-! ### The serializer produces exactly one pair per error, splitting
each display line at the `": "` separator. -/

theorem serializeErrorsLoop_eq (e : List ValidationError)
    (path : List PathElement) :
    serializeErrorsLoop e path = e.map fun err => (fmtPath path, fmtError err) := by
  induction e with
  | nil => simp [serializeErrorsLoop]
  | cons a t ih => simp [serializeErrorsLoop, ih]

theorem serializeFieldsLoop_map (fs : List (String × ValidationNode))
    (H : ∀ kv ∈ fs, ∀ path, (serializeElements kv.2 path).map
      (fun pr => pr.1 ++ ": " ++ pr.2) = linesSpec kv.2 path)
    (path : List PathElement) :
    (serializeFieldsLoop fs path).map (fun pr => pr.1 ++ ": " ++ pr.2) =
      linesSpecFields fs path := by
  induction fs with
  | nil => simp [serializeFieldsLoop, linesSpecFields]
  | cons kv rest ih =>
    obtain ⟨k, v⟩ := kv
    simp only [serializeFieldsLoop, linesSpecFields, List.map_append,
      H (k, v) (by simp), ih (fun kv hkv => H kv (by simp [hkv]))]

theorem serializeItemsLoop_map (its : List (Nat × ValidationNode))
    (H : ∀ kv ∈ its, ∀ path, (serializeElements kv.2 path).map
      (fun pr => pr.1 ++ ": " ++ pr.2) = linesSpec kv.2 path)
    (path : List PathElement) :
    (serializeItemsLoop its path).map (fun pr => pr.1 ++ ": " ++ pr.2) =
      linesSpecItems its path := by
  induction its with
  | nil => simp [serializeItemsLoop, linesSpecItems]
  | cons kv rest ih =>
    obtain ⟨i, v⟩ := kv
    simp only [serializeItemsLoop, linesSpecItems, List.map_append,
      H (i, v) (by simp), ih (fun kv hkv => H kv (by simp [hkv]))]

theorem serializeElements_map (n : ValidationNode) :
    ∀ path, (serializeElements n path).map (fun pr => pr.1 ++ ": " ++ pr.2) =
      linesSpec n path := by
  induction n using node_ind with
  | _ n IH =>
    obtain ⟨e, fs, its⟩ := n
    intro path
    have Hf : ∀ kv ∈ fs, ∀ path, (serializeElements kv.2 path).map
        (fun pr => pr.1 ++ ": " ++ pr.2) = linesSpec kv.2 path :=
      fun kv hkv => IH kv.2 (sizeOf_field_child hkv)
    have Hi : ∀ kv ∈ its, ∀ path, (serializeElements kv.2 path).map
        (fun pr => pr.1 ++ ": " ++ pr.2) = linesSpec kv.2 path :=
      fun kv hkv => IH kv.2 (sizeOf_item_child hkv)
    simp only [serializeElements, linesSpec, List.map_append,
      serializeErrorsLoop_eq, serializeFieldsLoop_map fs Hf,
      serializeItemsLoop_map its Hi, List.map_map]
    have hfun : ((fun pr : String × String => pr.1 ++ ": " ++ pr.2) ∘
        (fun err : ValidationError => (fmtPath path, fmtError err))) =
        (fun err => pathSpec path ++ ": " ++ errorDescSpec err) := by
      funext err
      simp [Function.comp, fmtPath_eq, fmtError_eq, str_append_assoc]
    rw [hfun]

theorem serializeElements_length (n : ValidationNode) :
    ∀ path, (serializeElements n path).length = errorCount n := by
  induction n using node_ind with
  | _ n IH
  =>
    obtain ⟨e, fs, its⟩ := n
    intro path
    have Hf : ∀ kv ∈ fs, ∀ path, (serializeElements kv.2 path).length =
        errorCount kv.2 :=
      fun kv hkv => IH kv.2 (sizeOf_field_child hkv)
    have Hi : ∀ kv ∈ its, ∀ path, (serializeElements kv.2 path).length =
        errorCount kv.2 :=
      fun kv hkv => IH kv.2 (sizeOf_item_child hkv)
    have hf : ∀ (l : List (String × ValidationNode)),
        (∀ kv ∈ l, ∀ path, (serializeElements kv.2 path).length = errorCount kv.2) →
        ∀ path, (serializeFieldsLoop l path).length = errorCountFields l := by
      intro l
      induction l with
      | nil => intro _ _; simp [serializeFieldsLoop, errorCountFields]
      | cons kv rest ih =>
        intro H path
        obtain ⟨k, v⟩ := kv
        simp only [serializeFieldsLoop, errorCountFields, List.length_append,
          H (k, v) (by simp), ih (fun kv hkv => H kv (by simp [hkv])) path]
    have hi : ∀ (l : List (Nat × ValidationNode)),
        (∀ kv ∈ l, ∀ path, (serializeElements kv.2 path).length = errorCount kv.2) →
        ∀ path, (serializeItemsLoop l path).length = errorCountItems l := by
      intro l
      induction l with
      | nil => intro _ _; simp [serializeItemsLoop, errorCountItems]
      | cons kv rest ih =>
        intro H path
        obtain ⟨i, v⟩ := kv
        simp only [serializeItemsLoop, errorCountItems, List.length_append,
          H (i, v) (by simp), ih (fun kv hkv => H kv (by simp [hkv])) path]
    simp only [serializeElements, List.length_append, serializeErrorsLoop_eq,
      List.length_map, errorCount, hf fs Hf path, hi its Hi path]

theorem linesSpec_length (n : ValidationNode) (path : List PathElement) :
    (linesSpec n path).length = errorCount n := by
  rw [← serializeElements_map n path, List.length_map, serializeElements_length]

/-! ### Generic theory of the `BTreeMap` association-list embedding:
ordered insert-or-combine, its fold, first-match lookup, sortedness. -/

section AssocTheory

variable {K V : Type} [LinearOrder K]

/-- `insertField`/`insertItem` abstracted over the combining function. -/
def insertWith (m : V → V → V) : List (K × V) → K → V → List (K × V)
  | [], k, v => [(k, v)]
  | (k', v') :: rest, k, v =>
    if k < k' then (k, v) :: (k', v') :: rest
    else if k = k' then (k', m v' v) :: rest
    else (k', v') :: insertWith m rest k v

/-- `mergeFieldsInto`/`mergeItemsInto` abstracted over the combining
function. -/
def foldInsertWith (m : V → V → V) : List (K × V) → List (K × V) → List (K × V)
  | acc, [] => acc
  | acc, (k, v) :: rest => foldInsertWith m (insertWith m acc k v) rest

/-- Keys strictly ascending. -/
def SortedKeys (l : List (K × V)) : Prop :=
  List.Pairwise (fun a b : K × V => a.1 < b.1) l

/-- Pointwise combination of optional values: the shape of a merged
map's lookup. -/
def combineOpt (m : V → V → V) : Option V → Option V → Option V
  | some a, some b => some (m a b)
  | some a, none => some a
  | none, b => b

theorem combineOpt_none_right (m : V → V → V) (a : Option V) :
    combineOpt m a none = a := by
  cases a <;> rfl

theorem lookupKV_none_of_lt_all {l : List (K × V)} {key : K}
    (h : ∀ p ∈ l, key < p.1) : lookupKV l key = none := by
  induction l with
  | nil => rfl
  | cons p rest ih =>
    have hne : key ≠ p.1 := ne_of_lt (h p (by simp))
    simp only [lookupKV, if_neg hne]
    exact ih (fun q hq => h q (by simp [hq]))

theorem lookupKV_some_mem {l : List (K × V)} {key : K} {v : V}
    (h : lookupKV l key = some v) : (key, v) ∈ l := by
  induction l with
  | nil => simp [lookupKV] at h
  | cons p rest ih =>
    by_cases hk : key = p.1
    · simp only [lookupKV, if_pos hk] at h
      subst hk
      injection h with hv
      rw [← hv]
      simp
    · simp only [lookupKV, if_neg hk] at h
      exact List.mem_cons_of_mem _ (ih h)

theorem mem_insertWith (m : V → V → V) {l : List (K × V)} {k : K} {v : V} :
    ∀ p ∈ insertWith m l k v,
      p ∈ l ∨ p = (k, v) ∨ ∃ w, (k, w) ∈ l ∧ p = (k, m w v) := by
  induction l with
  | nil =>
    intro p hp
    simp only [insertWith, List.mem_singleton] at hp
    exact Or.inr (Or.inl hp)
  | cons q rest ih =>
    intro p hp
    obtain ⟨k', v'⟩ := q
    simp only [insertWith] at hp
    by_cases h1 : k < k'
    · rw [if_pos h1, List.mem_cons] at hp
      rcases hp with hp | hp
      · exact Or.inr (Or.inl hp)
      · exact Or.inl hp
    · rw [if_neg h1] at hp
      by_cases h2 : k = k'
      · rw [if_pos h2, List.mem_cons] at hp
        rcases hp with hp | hp
        · subst h2
          exact Or.inr (Or.inr ⟨v', by simp, hp⟩)
        · exact Or.inl (List.mem_cons_of_mem _ hp)
      · rw [if_neg h2, List.mem_cons] at hp
        rcases hp with hp | hp
        · exact Or.inl (by simp [hp])
        · rcases ih p hp with h | h | ⟨w, hw, hq⟩
          · exact Or.inl (List.mem_cons_of_mem _ h)
          · exact Or.inr (Or.inl h)
          · exact Or.inr (Or.inr ⟨w, List.mem_cons_of_mem _ hw, hq⟩)

theorem keys_insertWith (m : V → V → V) {l : List (K × V)} {k : K} {v : V} :
    ∀ p ∈ insertWith m l k v, p.1 = k ∨ p.1 ∈ l.map Prod.fst := by
  intro p hp
  rcases mem_insertWith m p hp with h | h | ⟨w, hw, hq⟩
  · exact Or.inr (List.mem_map_of_mem _ h)
  · exact Or.inl (by rw [h])
  · exact Or.inl (by rw [hq])

theorem insertWith_sorted (m : V → V → V) {l : List (K × V)} (k : K) (v : V)
    (hs : SortedKeys l) : SortedKeys (insertWith m l k v) := by
  induction l with
  | nil =>
    simp [insertWith, SortedKeys]
  | cons q rest ih =>
    obtain ⟨k', v'⟩ := q
    rw [SortedKeys, List.pairwise_cons] at hs
    obtain ⟨hall, hrest⟩ := hs
    simp only [insertWith]
    by_cases h1 : k < k'
    · rw [if_pos h1]
      rw [SortedKeys, List.pairwise_cons]
      constructor
      · intro b hb
        rw [List.mem_cons] at hb
        rcases hb with hb | hb
        · simpa [hb] using h1
        · exact lt_trans h1 (hall b hb)
      · rw [List.pairwise_cons]
        exact ⟨hall, hrest⟩
    · rw [if_neg h1]
      by_cases h2 : k = k'
      · rw [if_pos h2]
        rw [SortedKeys, List.pairwise_cons]
        exact ⟨hall, hrest⟩
      · rw [if_neg h2]
        rw [SortedKeys, List.pairwise_cons]
        constructor
        · intro b hb
          rcases keys_insertWith m b hb with h | h
          · rw [h]
            rcases lt_trichotomy k k' with hlt | heq | hgt
            · exact absurd hlt h1
            · exact absurd heq h2
            · exact hgt
          · obtain ⟨p, hp, hp1⟩ := List.mem_map.mp h
            rw [← hp1]
            exact hall p hp
        · exact ih hrest

theorem lookup_insertWith_self (m : V → V → V) {l : List (K × V)} (k : K)
    (v : V) (hs : SortedKeys l) :
    lookupKV (insertWith m l k v) k =
      some (match lookupKV l k with
            | none => v
            | some w => m w v) := by
  induction l with
  | nil => simp [insertWith, lookupKV]
  | cons q rest ih =>
    obtain ⟨k', v'⟩ := q
    rw [SortedKeys, List.pairwise_cons] at hs
    obtain ⟨hall, hrest⟩ := hs
    simp only [insertWith]
    by_cases h1 : k < k'
    · rw [if_pos h1]
      have hne : k ≠ k' := ne_of_lt h1
      have hnone : lookupKV rest k = none :=
        lookupKV_none_of_lt_all (fun p hp => lt_trans h1 (hall p hp))
      simp [lookupKV, hne, hnone]
    · rw [if_neg h1]
      by_cases h2 : k = k'
      · rw [if_pos h2]
        simp [lookupKV, h2]
      · rw [if_neg h2]
        simp only [lookupKV, if_neg h2]
        exact ih hrest

theorem lookup_insertWith_other (m : V → V → V) {l : List (K × V)} {k key : K}
    (v : V) (hne : key ≠ k) :
    lookupKV (insertWith m l k v) key = lookupKV l key := by
  induction l with
  | nil => simp [insertWith, lookupKV, hne]
  | cons q rest ih =>
    obtain ⟨k', v'⟩ := q
    simp only [insertWith]
    by_cases h1 : k < k'
    · rw [if_pos h1]
      simp [lookupKV, hne]
    · rw [if_neg h1]
      by_cases h2 : k = k'
      · rw [if_pos h2]
        subst h2
        simp [lookupKV, hne]
      · rw [if_neg h2]
        by_cases h3 : key = k'
        · simp [lookupKV, h3]
        · simp only [lookupKV, if_neg h3]
          exact ih

theorem foldInsertWith_sorted (m : V → V → V) {acc l : List (K × V)}
    (hs : SortedKeys acc) : SortedKeys (foldInsertWith m acc l) := by
  induction l generalizing acc with
  | nil => exact hs
  | cons q rest ih =>
    obtain ⟨k, v⟩ := q
    exact ih (insertWith_sorted m k v hs)

theorem lookup_foldInsertWith (m : V → V → V) {acc l : List (K × V)} (key : K)
    (hacc : SortedKeys acc) (hl : SortedKeys l) :
    lookupKV (foldInsertWith m acc l) key =
      combineOpt m (lookupKV acc key) (lookupKV l key) := by
  induction l generalizing acc with
  | nil => simp [foldInsertWith, lookupKV, combineOpt_none_right]
  | cons q rest ih =>
    obtain ⟨k0, v0⟩ := q
    rw [SortedKeys, List.pairwise_cons] at hl
    obtain ⟨hall, hrest⟩ := hl
    simp only [foldInsertWith]
    rw [ih (insertWith_sorted m k0 v0 hacc) hrest]
    by_cases hk : key = k0
    · subst hk
      have hnone : lookupKV rest key = none :=
        lookupKV_none_of_lt_all (fun p hp => hall p hp)
      rw [hnone, combineOpt_none_right, lookup_insertWith_self m key v0 hacc]
      simp only [lookupKV, if_pos rfl]
      cases lookupKV acc key <;> rfl
    · rw [lookup_insertWith_other m v0 hk]
      simp only [lookupKV, if_neg hk]

theorem lookupKV_ext {l1 l2 : List (K × V)} (h1 : SortedKeys l1)
    (h2 : SortedKeys l2) (h : ∀ k, lookupKV l1 k = lookupKV l2 k) :
    l1 = l2 := by
  induction l1 generalizing l2 with
  | nil =>
    cases l2 with
    | nil => rfl
    | cons q r2 =>
      obtain ⟨k2, v2⟩ := q
      have := h k2
      simp [lookupKV] at this
  | cons p r1 ih =>
    obtain ⟨k1, v1⟩ := p
    cases l2 with
    | nil =>
      have := h k1
      simp [lookupKV] at this
    | cons q r2 =>
      obtain ⟨k2, v2⟩ := q
      rw [SortedKeys, List.pairwise_cons] at h1 h2
      obtain ⟨hall1, hr1⟩ := h1
      obtain ⟨hall2, hr2⟩ := h2
      have hm1 : (k1, v1) ∈ (k2, v2) :: r2 := by
        apply lookupKV_some_mem
        rw [← h k1]
        simp [lookupKV]
      have hm2 : (k2, v2) ∈ (k1, v1) :: r1 := by
        apply lookupKV_some_mem
        rw [h k2]
        simp [lookupKV]
      rw [List.mem_cons] at hm1 hm2
      have hkeys : k1 = k2 := by
        rcases hm1 with hm1 | hm1
        · exact congrArg Prod.fst hm1
        · rcases hm2 with hm2 | hm2
          · exact (congrArg Prod.fst hm2).symm
          · have l21 : k2 < k1 := hall2 _ hm1
            have l12 : k1 < k2 := hall1 _ hm2
            exact absurd (lt_trans l21 l12) (lt_irrefl k2)
      subst hkeys
      have hv : v1 = v2 := by
        have := h k1
        simp [lookupKV] at this
        exact this
      subst hv
      have htails : ∀ k, lookupKV r1 k = lookupKV r2 k := by
        intro k
        by_cases hk : k = k1
        · subst hk
          rw [lookupKV_none_of_lt_all (fun p hp => hall1 p hp),
            lookupKV_none_of_lt_all (fun p hp => hall2 p hp)]
        · have := h k
          simpa [lookupKV, if_neg hk] using this
      rw [ih hr1 hr2 htails]

theorem insertWith_append_of_lt (m : V → V → V) {acc : List (K × V)} {k : K}
    (v : V) (h : ∀ p ∈ acc, p.1 < k) :
    insertWith m acc k v = acc ++ [(k, v)] := by
  induction acc with
  | nil => rfl
  | cons q rest ih =>
    obtain ⟨k', v'⟩ := q
    have hk' : k' < k := h (k', v') (by simp)
    simp only [insertWith, if_neg (asymm hk'), if_neg (ne_of_gt hk'),
      List.cons_append]
    rw [ih (fun p hp => h p (by simp [hp]))]

theorem foldInsertWith_sorted_append (m : V → V → V) {acc l : List (K × V)}
    (hs : SortedKeys (acc ++ l)) : foldInsertWith m acc l = acc ++ l := by
  induction l generalizing acc with
  | nil => simp [foldInsertWith]
  | cons q rest ih =>
    obtain ⟨k0, v0⟩ := q
    have hlt : ∀ p ∈ acc, p.1 < k0 := by
      rw [SortedKeys, List.pairwise_append] at hs
      exact fun p hp => hs.2.2 p hp (k0, v0) (by simp)
    simp only [foldInsertWith]
    rw [insertWith_append_of_lt m v0 hlt]
    have hs' : SortedKeys ((acc ++ [(k0, v0)]) ++ rest) := by
      simpa [List.append_assoc] using hs
    rw [ih hs']
    simp

theorem insertWith_ne_nil (m : V → V → V) (l : List (K × V)) (k : K) (v : V) :
    insertWith m l k v ≠ [] := by
  cases l with
  | nil => simp [insertWith]
  | cons q rest =>
    obtain ⟨k', v'⟩ := q
    simp only [insertWith]
    by_cases h1 : k < k'
    · simp [if_pos h1]
    · rw [if_neg h1]
      by_cases h2 : k = k'
      · simp [if_pos h2]
      · simp [if_neg h2]

theorem foldInsertWith_nil_iff (m : V → V → V) (acc l : List (K × V)) :
    foldInsertWith m acc l = [] ↔ acc = [] ∧ l = [] := by
  induction l generalizing acc with
  | nil => simp [foldInsertWith]
  | cons q rest ih =>
    obtain ⟨k, v⟩ := q
    simp only [foldInsertWith]
    rw [ih]
    simp [insertWith_ne_nil m acc k v]

theorem foldInsertWith_preserve (m : V → V → V) (Q : V → Prop)
    {acc l : List (K × V)}
    (Hm : ∀ x (p : K × V), Q x → p ∈ l → Q p.2 → Q (m x p.2))
    (Hacc : ∀ p ∈ acc, Q p.2) (Hl : ∀ p ∈ l, Q p.2) :
    ∀ p ∈ foldInsertWith m acc l, Q p.2 := by
  induction l generalizing acc with
  | nil => exact Hacc
  | cons q rest ih =>
    obtain ⟨k0, v0⟩ := q
    simp only [foldInsertWith]
    apply ih
    · exact fun x p hx hp hq => Hm x p hx (by simp [hp]) hq
    · intro p hp
      rcases mem_insertWith m p hp with h | h | ⟨w, hw, hq⟩
      · exact Hacc p h
      · rw [h]
        exact Hl (k0, v0) (by simp)
      · rw [hq]
        exact Hm w (k0, v0) (Hacc (k0, w) hw) (by simp) (Hl (k0, v0) (by simp))
    · exact fun p hp => Hl p (by simp [hp])

end AssocTheory

/-! ### The concrete merge functions are instances of the generic ones. -/

theorem insertField_eq (l : List (String × ValidationNode)) (k : String)
    (v : ValidationNode) : insertField l k v = insertWith mergeNode l k v := by
  induction l with
  | nil => simp [insertField, insertWith]
  | cons q rest ih =>
    obtain ⟨k', v'⟩ := q
    simp only [insertField, insertWith, ih]
    split_ifs <;> rfl

theorem insertItem_eq (l : List (Nat × ValidationNode)) (k : Nat)
    (v : ValidationNode) : insertItem l k v = insertWith mergeNode l k v := by
  induction l with
  | nil => simp [insertItem, insertWith]
  | cons q rest ih =>
    obtain ⟨k', v'⟩ := q
    simp only [insertItem, insertWith, ih]

theorem mergeFieldsInto_eq (acc l : List (String × ValidationNode)) :
    mergeFieldsInto acc l = foldInsertWith mergeNode acc l := by
  induction l generalizing acc with
  | nil => simp [mergeFieldsInto, foldInsertWith]
  | cons q rest ih =>
    obtain ⟨k, v⟩ := q
    simp only [mergeFieldsInto, foldInsertWith, insertField_eq, ih]

theorem mergeItemsInto_eq (acc l : List (Nat × ValidationNode)) :
    mergeItemsInto acc l = foldInsertWith mergeNode acc l := by
  induction l generalizing acc with
  | nil => simp [mergeItemsInto, foldInsertWith]
  | cons q rest ih =>
    obtain ⟨k, v⟩ := q
    simp only [mergeItemsInto, foldInsertWith, insertItem_eq, ih]

theorem mergeNode_mk (e1 e2 : List ValidationError)
    (f1 f2 : List (String × ValidationNode))
    (i1 i2 : List (Nat × ValidationNode)) :
    mergeNode (.mk e1 f1 i1) (.mk e2 f2 i2) =
      .mk (e1 ++ e2) (foldInsertWith mergeNode f1 f2)
        (foldInsertWith mergeNode i1 i2) := by
  rw [mergeNode, mergeFieldsInto_eq, mergeItemsInto_eq]

/-! ### Characterizations of the Bool-valued invariants. -/

theorem keysSortedB_iff {K V : Type} [LinearOrder K] :
    ∀ l : List (K × V), keysSortedB l = true ↔ SortedKeys l
  | [] => by simp [keysSortedB, SortedKeys]
  | [a] => by simp [keysSortedB, SortedKeys]
  | a :: b :: rest => by
    have ih := keysSortedB_iff (b :: rest)
    simp only [keysSortedB, Bool.and_eq_true, decide_eq_true_eq, ih]
    constructor
    · rintro ⟨hab, hsorted⟩
      rw [SortedKeys, List.pairwise_cons]
      refine ⟨?_, hsorted⟩
      intro x hx
      rw [List.mem_cons] at hx
      rcases hx with hx | hx
      · rw [hx]; exact hab
      · rw [SortedKeys, List.pairwise_cons] at hsorted
        exact lt_trans hab (hsorted.1 x hx)
    · intro h
      rw [SortedKeys, List.pairwise_cons] at h
      exact ⟨h.1 b (by simp), h.2⟩

theorem WFbFields_iff (l : List (String × ValidationNode)) :
    WFbFields l = true ↔ ∀ kv ∈ l, WFb kv.2 = true := by
  induction l with
  | nil => simp [WFbFields]
  | cons q rest ih =>
    obtain ⟨k, v⟩ := q
    simp [WFbFields, ih]

theorem WFbItems_iff (l : List (Nat × ValidationNode)) :
    WFbItems l = true ↔ ∀ kv ∈ l, WFb kv.2 = true := by
  induction l with
  | nil => simp [WFbItems]
  | cons q rest ih =>
    obtain ⟨k, v⟩ := q
    simp [WFbItems, ih]

theorem WFb_mk_iff (e : List ValidationError)
    (fs : List (String × ValidationNode)) (its : List (Nat × ValidationNode)) :
    WFb (.mk e fs its) = true ↔
      (∀ err ∈ e, keysSortedB err.params = true) ∧ SortedKeys fs ∧
        SortedKeys its ∧ (∀ kv ∈ fs, WFb kv.2 = true) ∧
        (∀ kv ∈ its, WFb kv.2 = true) := by
  rw [WFb]
  simp [Bool.and_eq_true, List.all_eq_true, keysSortedB_iff, WFbFields_iff,
    WFbItems_iff, and_assoc]

theorem PrunedbFields_iff (l : List (String × ValidationNode)) :
    PrunedbFields l = true ↔
      ∀ kv ∈ l, (kv.2 : ValidationNode).is_ok = false ∧ Prunedb kv.2 = true := by
  induction l with
  | nil => simp [PrunedbFields]
  | cons q rest ih =>
    obtain ⟨k, v⟩ := q
    simp [PrunedbFields, ih, Bool.not_eq_true', and_assoc]

theorem PrunedbItems_iff (l : List (Nat × ValidationNode)) :
    PrunedbItems l = true ↔
      ∀ kv ∈ l, (kv.2 : ValidationNode).is_ok = false ∧ Prunedb kv.2 = true := by
  induction l with
  | nil => simp [PrunedbItems]
  | cons q rest ih =>
    obtain ⟨k, v⟩ := q
    simp [PrunedbItems, ih, Bool.not_eq_true', and_assoc]

theorem Prunedb_mk_iff (e : List ValidationError)
    (fs : List (String × ValidationNode)) (its : List (Nat × ValidationNode)) :
    Prunedb (.mk e fs its) = true ↔
      (∀ kv ∈ fs, (kv.2 : ValidationNode).is_ok = false ∧ Prunedb kv.2 = true) ∧
      (∀ kv ∈ its, (kv.2 : ValidationNode).is_ok = false ∧ Prunedb kv.2 = true) := by
  rw [Prunedb]
  simp [Bool.and_eq_true, PrunedbFields_iff, PrunedbItems_iff]

/-! ### Merge: emptiness, well-formedness, identity, associativity. -/

theorem foldInsertWith_isEmpty {K V : Type} [LinearOrder K] (m : V → V → V)
    (acc l : List (K × V)) :
    (foldInsertWith m acc l).isEmpty = (acc.isEmpty && l.isEmpty) := by
  by_cases h : foldInsertWith m acc l = []
  · obtain ⟨h1, h2⟩ := (foldInsertWith_nil_iff m acc l).mp h
    subst h1; subst h2
    rfl
  · have h2 : ¬ (acc = [] ∧ l = []) := fun hc =>
      h ((foldInsertWith_nil_iff m acc l).mpr hc)
    rw [List.isEmpty_eq_false_iff_exists_mem.mpr]
    · rcases acc with _ | ⟨a, acc'⟩
      · rcases l with _ | ⟨b, l'⟩
        · exact absurd ⟨rfl, rfl⟩ h2
        · simp
      · simp
    · rcases List.exists_mem_of_ne_nil _ h with ⟨x, hx⟩
      exact ⟨x, hx⟩

theorem mergeNode_is_ok (a b : ValidationNode) :
    (mergeNode a b).is_ok = (a.is_ok && b.is_ok) := by
  obtain ⟨e1, f1, i1⟩ := a
  obtain ⟨e2, f2, i2⟩ := b
  rw [mergeNode_mk]
  simp only [ValidationNode.is_ok, ValidationNode.errors, ValidationNode.fields,
    ValidationNode.items, isEmpty_append_bool, foldInsertWith_isEmpty]
  cases e1.isEmpty <;> cases e2.isEmpty <;> cases f1.isEmpty <;>
    cases f2.isEmpty <;> cases i1.isEmpty <;> cases i2.isEmpty <;> rfl

theorem mergeNode_not_ok_left {a : ValidationNode} (b : ValidationNode)
    (ha : a.is_ok = false) : (mergeNode a b).is_ok = false := by
  rw [mergeNode_is_ok, ha]
  rfl

theorem mergeNode_ok_right (a : ValidationNode) :
    mergeNode a ValidationNode.ok = a := by
  obtain ⟨e, fs, its⟩ := a
  show mergeNode (.mk e fs its) (.mk [] [] []) = .mk e fs its
  rw [mergeNode_mk]
  simp [foldInsertWith]

theorem mergeNode_ok_left {a : ValidationNode} (ha : WFb a = true) :
    mergeNode ValidationNode.ok a = a := by
  obtain ⟨e, fs, its⟩ := a
  rw [WFb_mk_iff] at ha
  obtain ⟨_, hsf, hsi, _, _⟩ := ha
  show mergeNode (.mk [] [] []) (.mk e fs its) = .mk e fs its
  rw [mergeNode_mk]
  rw [foldInsertWith_sorted_append mergeNode (by simpa using hsf),
    foldInsertWith_sorted_append mergeNode (by simpa using hsi)]
  simp

theorem mergeNode_wf : ∀ b a, WFb a = true → WFb b = true →
    WFb (mergeNode a b) = true := by
  intro b
  induction b using node_ind with
  | _ b IH =>
    obtain ⟨e2, f2, i2⟩ := b
    intro a ha hb
    obtain ⟨e1, f1, i1⟩ := a
    rw [WFb_mk_iff] at ha hb
    obtain ⟨hp1, hsf1, hsi1, hwf1, hwi1⟩ := ha
    obtain ⟨hp2, hsf2, hsi2, hwf2, hwi2⟩ := hb
    rw [mergeNode_mk, WFb_mk_iff]
    refine ⟨?_, ?_, ?_, ?_, ?_⟩
    · intro err herr
      rw [List.mem_append] at herr
      rcases herr with h | h
      · exact hp1 err h
      · exact hp2 err h
    · exact foldInsertWith_sorted mergeNode hsf1
    · exact foldInsertWith_sorted mergeNode hsi1
    · exact foldInsertWith_preserve mergeNode (fun v => WFb v = true)
        (fun x p hx hp hq => IH p.2 (sizeOf_field_child hp) x hx hq)
        hwf1 hwf2
    · exact foldInsertWith_preserve mergeNode (fun v => WFb v = true)
        (fun x p hx hp hq => IH p.2 (sizeOf_item_child hp) x hx hq)
        hwi1 hwi2

theorem mergeNode_pruned : ∀ b a, Prunedb a = true → Prunedb b = true →
    Prunedb (mergeNode a b) = true := by
  intro b
  induction b using node_ind with
  | _ b IH =>
    obtain ⟨e2, f2, i2⟩ := b
    intro a ha hb
    obtain ⟨e1, f1, i1⟩ := a
    rw [Prunedb_mk_iff] at ha hb
    obtain ⟨hf1, hi1⟩ := ha
    obtain ⟨hf2, hi2⟩ := hb
    rw [mergeNode_mk, Prunedb_mk_iff]
    constructor
    · exact foldInsertWith_preserve mergeNode
        (fun v => v.is_ok = false ∧ Prunedb v = true)
        (fun x p hx hp hq =>
          ⟨mergeNode_not_ok_left p.2 hx.1,
            IH p.2 (sizeOf_field_child hp) x hx.2 hq.2⟩)
        hf1 hf2
    · exact foldInsertWith_preserve mergeNode
        (fun v => v.is_ok = false ∧ Prunedb v = true)
        (fun x p hx hp hq =>
          ⟨mergeNode_not_ok_left p.2 hx.1,
            IH p.2 (sizeOf_item_child hp) x hx.2 hq.2⟩)
        hi1 hi2

theorem combineOpt_assoc_of (m : ValidationNode → ValidationNode → ValidationNode)
    (x y z : Option ValidationNode)
    (h : ∀ a b c, x = some a → y = some b → z = some c →
      m (m a b) c = m a (m b c)) :
    combineOpt m (combineOpt m x y) z = combineOpt m x (combineOpt m y z) := by
  cases x <;> cases y <;> cases z <;> simp_all [combineOpt]

theorem mergeNode_assoc_aux : ∀ N a b c,
    sizeOf a + sizeOf b + sizeOf c < N →
    WFb a = true → WFb b = true → WFb c = true →
    mergeNode (mergeNode a b) c = mergeNode a (mergeNode b c) := by
  intro N
  induction N with
  | zero => intro a b c h; omega
  | succ N ih =>
    intro a b c hs ha hb hc
    obtain ⟨e1, f1, i1⟩ := a
    obtain ⟨e2, f2, i2⟩ := b
    obtain ⟨e3, f3, i3⟩ := c
    have ha' := ha; have hb' := hb; have hc' := hc
    rw [WFb_mk_iff] at ha' hb' hc'
    obtain ⟨_, hsf1, hsi1, hwf1, hwi1⟩ := ha'
    obtain ⟨_, hsf2, hsi2, hwf2, hwi2⟩ := hb'
    obtain ⟨_, hsf3, hsi3, hwf3, hwi3⟩ := hc'
    rw [mergeNode_mk, mergeNode_mk, mergeNode_mk, mergeNode_mk]
    congr 1
    · rw [List.append_assoc]
    · apply lookupKV_ext
      · exact foldInsertWith_sorted mergeNode
          (foldInsertWith_sorted mergeNode hsf1)
      · exact foldInsertWith_sorted mergeNode hsf1
      · intro key
        rw [lookup_foldInsertWith mergeNode key
            (foldInsertWith_sorted mergeNode hsf1) hsf3,
          lookup_foldInsertWith mergeNode key hsf1 hsf2,
          lookup_foldInsertWith mergeNode key hsf1
            (foldInsertWith_sorted mergeNode hsf2),
          lookup_foldInsertWith mergeNode key hsf2 hsf3]
        apply combineOpt_assoc_of
        intro va vb vc h1 h2 h3
        have hma : (key, va) ∈ f1 := lookupKV_some_mem h1
        have hmb : (key, vb) ∈ f2 := lookupKV_some_mem h2
        have hmc : (key, vc) ∈ f3 := lookupKV_some_mem h3
        have s1 : sizeOf va < sizeOf (ValidationNode.mk e1 f1 i1) :=
          sizeOf_field_child hma
        have s2 : sizeOf vb < sizeOf (ValidationNode.mk e2 f2 i2) :=
          sizeOf_field_child hmb
        have s3 : sizeOf vc < sizeOf (ValidationNode.mk e3 f3 i3) :=
          sizeOf_field_child hmc
        exact ih va vb vc (by omega) (hwf1 (key, va) hma)
          (hwf2 (key, vb) hmb) (hwf3 (key, vc) hmc)
    · apply lookupKV_ext
      · exact foldInsertWith_sorted mergeNode
          (foldInsertWith_sorted mergeNode hsi1)
      · exact foldInsertWith_sorted mergeNode hsi1
      · intro key
        rw [lookup_foldInsertWith mergeNode key
            (foldInsertWith_sorted mergeNode hsi1) hsi3,
          lookup_foldInsertWith mergeNode key hsi1 hsi2,
          lookup_foldInsertWith mergeNode key hsi1
            (foldInsertWith_sorted mergeNode hsi2),
          lookup_foldInsertWith mergeNode key hsi2 hsi3]
        apply combineOpt_assoc_of
        intro va vb vc h1 h2 h3
        have hma : (key, va) ∈ i1 := lookupKV_some_mem h1
        have hmb : (key, vb) ∈ i2 := lookupKV_some_mem h2
        have hmc : (key, vc) ∈ i3 := lookupKV_some_mem h3
        have s1 : sizeOf va < sizeOf (ValidationNode.mk e1 f1 i1) :=
          sizeOf_item_child hma
        have s2 : sizeOf vb < sizeOf (ValidationNode.mk e2 f2 i2) :=
          sizeOf_item_child hmb
        have s3 : sizeOf vc < sizeOf (ValidationNode.mk e3 f3 i3) :=
          sizeOf_item_child hmc
        exact ih va vb vc (by omega) (hwi1 (key, va) hma)
          (hwi2 (key, vb) hmb) (hwi3 (key, vc) hmc)

theorem mergeNode_assoc {a b c : ValidationNode} (ha : WFb a = true)
    (hb : WFb b = true) (hc : WFb c = true) :
    mergeNode (mergeNode a b) c = mergeNode a (mergeNode b c) :=
  mergeNode_assoc_aux (sizeOf a + sizeOf b + sizeOf c + 1) a b c
    (by omega) ha hb hc

/-! ### The pruned-children invariant is established and preserved by
every public combinator. -/

theorem pruned_no_children (e : List ValidationError) :
    Prunedb (.mk e [] []) = true := by
  rw [Prunedb_mk_iff]
  simp

theorem pruned_errors_irrelevant (e1 e2 : List ValidationError)
    (fs : List (String × ValidationNode)) (its : List (Nat × ValidationNode)) :
    Prunedb (.mk e1 fs its) = Prunedb (.mk e2 fs its) := by
  rw [Prunedb, Prunedb]

theorem pruned_field (k : String) {v : ValidationNode}
    (hv : Prunedb v = true) : Prunedb (ValidationNode.field k v) = true := by
  rw [ValidationNode.field]
  by_cases h : v.is_ok
  · simp only [h, Bool.not_true, Bool.false_eq_true, if_false]
    exact pruned_no_children []
  · rw [Bool.not_eq_true] at h
    simp only [h, Bool.not_false, if_true]
    rw [Prunedb_mk_iff]
    constructor
    · intro kv hkv
      rw [List.mem_singleton] at hkv
      rw [hkv]
      exact ⟨h, hv⟩
    · simp

theorem pruned_item (i : Nat) {v : ValidationNode}
    (hv : Prunedb v = true) : Prunedb (ValidationNode.item i v) = true := by
  rw [ValidationNode.item]
  by_cases h : v.is_ok
  · simp only [h, Bool.not_true, Bool.false_eq_true, if_false]
    exact pruned_no_children []
  · rw [Bool.not_eq_true] at h
    simp only [h, Bool.not_false, if_true]
    rw [Prunedb_mk_iff]
    constructor
    · simp
    · intro kv hkv
      rw [List.mem_singleton] at hkv
      rw [hkv]
      exact ⟨h, hv⟩

theorem pruned_and_field {n : ValidationNode} (k : String)
    {v : ValidationNode} (hn : Prunedb n = true) (hv : Prunedb v = true) :
    Prunedb (n.and_field k v) = true := by
  obtain ⟨e, fs, its⟩ := n
  rw [ValidationNode.and_field]
  by_cases h : ValidationNode.is_ok v
  · simp only [h, Bool.not_true, Bool.false_eq_true, if_false]
    exact hn
  · rw [Bool.not_eq_true] at h
    simp only [h, Bool.not_false, if_true]
    rw [Prunedb_mk_iff] at hn ⊢
    obtain ⟨hf, hi⟩ := hn
    refine ⟨?_, by simpa using hi⟩
    simp only [ValidationNode.fields, ValidationNode.items] at *
    intro kv hkv
    rw [insertField_eq] at hkv
    rcases mem_insertWith mergeNode kv hkv with hm | hm | ⟨w, hw, hq⟩
    · exact hf kv hm
    · rw [hm]
      exact ⟨h, hv⟩
    · rw [hq]
      refine ⟨mergeNode_not_ok_left v (hf (k, w) hw).1, ?_⟩
      exact mergeNode_pruned v w (hf (k, w) hw).2 hv

theorem pruned_and_item {n : ValidationNode} (i : Nat)
    {v : ValidationNode} (hn : Prunedb n = true) (hv : Prunedb v = true) :
    Prunedb (n.and_item i v) = true := by
  obtain ⟨e, fs, its⟩ := n
  rw [ValidationNode.and_item]
  by_cases h : ValidationNode.is_ok v
  · simp only [h, Bool.not_true, Bool.false_eq_true, if_false]
    exact hn
  · rw [Bool.not_eq_true] at h
    simp only [h, Bool.not_false, if_true]
    rw [Prunedb_mk_iff] at hn ⊢
    obtain ⟨hf, hi⟩ := hn
    refine ⟨by simpa using hf, ?_⟩
    simp only [ValidationNode.fields, ValidationNode.items] at *
    intro kv hkv
    rw [insertItem_eq] at hkv
    rcases mem_insertWith mergeNode kv hkv with hm | hm | ⟨w, hw, hq⟩
    · exact hi kv hm
    · rw [hm]
      exact ⟨h, hv⟩
    · rw [hq]
      refine ⟨mergeNode_not_ok_left v (hi (i, w) hw).1, ?_⟩
      exact mergeNode_pruned v w (hi (i, w) hw).2 hv

theorem pruned_fieldsOf {K V : Type} [ToString K] (l : List (K × V))
    (f : K → V → ValidationNode)
    (hl : ∀ kv ∈ l, Prunedb (f kv.1 kv.2) = true) :
    Prunedb (ValidationNode.fieldsOf l f) = true := by
  rw [ValidationNode.fieldsOf]
  have main : ∀ (l' : List (K × V)) (acc : ValidationNode),
      Prunedb acc = true → (∀ kv ∈ l', Prunedb (f kv.1 kv.2) = true) →
      Prunedb (l'.foldl
        (fun acc kv =>
          let validation_errors := f kv.1 kv.2
          if !validation_errors.is_ok then
            acc.and_field (toString kv.1) validation_errors
          else acc) acc) = true := by
    intro l'
    induction l' with
    | nil => intro acc hacc _; exact hacc
    | cons kv rest ih =>
      intro acc hacc hl'
      rw [List.foldl_cons]
      apply ih
      · by_cases h : (f kv.1 kv.2).is_ok
        · simpa [h] using hacc
        · rw [Bool.not_eq_true] at h
          simpa [h] using
            pruned_and_field (toString kv.1) hacc (hl' kv (by simp))
      · exact fun kv' hkv' => hl' kv' (by simp [hkv'])
  exact main l ValidationNode.ok (pruned_no_children []) hl

theorem pruned_itemsOf {T : Type} (l : List T) (f : Nat → T → ValidationNode)
    (hl : ∀ iv ∈ l.enum, Prunedb (f iv.1 iv.2) = true) :
    Prunedb (ValidationNode.itemsOf l f) = true := by
  rw [ValidationNode.itemsOf]
  have main : ∀ (l' : List (Nat × T)) (acc : ValidationNode),
      Prunedb acc = true → (∀ iv ∈ l', Prunedb (f iv.1 iv.2) = true) →
      Prunedb (l'.foldl (fun acc iv => acc.and_item iv.1 (f iv.1 iv.2)) acc) =
        true := by
    intro l'
    induction l' with
    | nil => intro acc hacc _; exact hacc
    | cons iv rest ih =>
      intro acc hacc hl'
      rw [List.foldl_cons]
      apply ih
      · exact pruned_and_item iv.1 hacc (hl' iv (by simp))
      · exact fun iv' hiv' => hl' iv' (by simp [hiv'])
  exact main l.enum ValidationNode.ok (pruned_no_children []) hl

/-! ### `first`: on a pruned tree it keeps exactly one error. -/

theorem first_spec : ∀ n : ValidationNode, Prunedb n = true →
    (n.is_ok = false →
      n.first.is_ok = false ∧ Prunedb n.first = true ∧
        errorCount n.first = 1) ∧
    (n.is_ok = true → n.first = ValidationNode.ok) := by
  intro n
  induction n using node_ind with
  | _ n IH =>
    obtain ⟨e, fs, its⟩ := n
    intro hpr
    rcases e with _ | ⟨err, erest⟩
    · rcases fs with _ | ⟨⟨k, v⟩, frest⟩
      · rcases its with _ | ⟨⟨i, v⟩, irest⟩
        · refine ⟨?_, ?_⟩
          · intro h
            simp [ValidationNode.is_ok, ValidationNode.errors,
              ValidationNode.fields, ValidationNode.items] at h
          · intro _
            rfl
        · rw [Prunedb_mk_iff] at hpr
          have hv := hpr.2 (i, v) (by simp)
          have hmem : (i, v) ∈ (i, v) :: irest := by simp
          have hvrec := (IH v (sizeOf_item_child hmem)) hv.2
          have hvfirst := hvrec.1 hv.1
          refine ⟨?_, ?_⟩
          · intro _
            rw [ValidationNode.first]
            refine ⟨?_, ?_, ?_⟩
            · simp [ValidationNode.is_ok, ValidationNode.errors,
                ValidationNode.fields, ValidationNode.items]
            · rw [Prunedb_mk_iff]
              constructor
              · simp
              · intro kv hkv
                rw [List.mem_singleton] at hkv
                rw [hkv]
                exact ⟨hvfirst.1, hvfirst.2.1⟩
            · rw [errorCount, errorCountFields, errorCountItems,
                errorCountItems]
              simp [hvfirst.2.2]
          · intro h
            simp [ValidationNode.is_ok, ValidationNode.errors,
              ValidationNode.fields, ValidationNode.items] at h
      · rw [Prunedb_mk_iff] at hpr
        have hv := hpr.1 (k, v) (by simp)
        have hmem : (k, v) ∈ (k, v) :: frest := by simp
        have hvrec := (IH v (sizeOf_field_child hmem)) hv.2
        have hvfirst := hvrec.1 hv.1
        refine ⟨?_, ?_⟩
        · intro _
          rw [ValidationNode.first]
          refine ⟨?_, ?_, ?_⟩
          · simp [ValidationNode.is_ok, ValidationNode.errors,
              ValidationNode.fields, ValidationNode.items]
          · rw [Prunedb_mk_iff]
            constructor
            · intro kv hkv
              rw [List.mem_singleton] at hkv
              rw [hkv]
              exact ⟨hvfirst.1, hvfirst.2.1⟩
            · simp
          · rw [errorCount, errorCountFields, errorCountFields,
              errorCountItems]
            simp [hvfirst.2.2]
        · intro h
          simp [ValidationNode.is_ok, ValidationNode.errors,
            ValidationNode.fields, ValidationNode.items] at h
    · refine ⟨?_, ?_⟩
      · intro _
        rw [ValidationNode.first]
        refine ⟨?_, ?_, ?_⟩
        · simp [ValidationNode.is_ok, ValidationNode.errors,
            ValidationNode.fields, ValidationNode.items]
        · exact pruned_no_children _
        · rw [errorCount, errorCountFields, errorCountItems]
          simp
      · intro h
        simp [ValidationNode.is_ok, ValidationNode.errors,
          ValidationNode.fields, ValidationNode.items] at h

theorem first_pruned {n : ValidationNode} (hn : Prunedb n = true) :
    Prunedb n.first = true := by
  by_cases h : n.is_ok
  · rw [(first_spec n hn).2 h]
    exact pruned_no_children []
  · rw [Bool.not_eq_true] at h
    exact ((first_spec n hn).1 h).2.1

/-! ### Closure of the public combinator API. -/

/-- The trees reachable through the public combinator API of
`ValidationNode`. -/
inductive Reachable : ValidationNode → Prop where
  | ok : Reachable ValidationNode.ok
  | error (e : ValidationError) : Reachable (ValidationNode.error e)
  | error_if (c : Bool) (f : Unit → ValidationError) :
      Reachable (ValidationNode.error_if c f)
  | errorsOf (l : List ValidationError) : Reachable (ValidationNode.errorsOf l)
  | and_error {n} (e : ValidationError) :
      Reachable n → Reachable (n.and_error e)
  | and_error_if {n} (c : Bool) (f : Unit → ValidationError) :
      Reachable n → Reachable (n.and_error_if c f)
  | and_errors {n} (l : List ValidationError) :
      Reachable n → Reachable (n.and_errors l)
  | field (k : String) {v} : Reachable v → Reachable (ValidationNode.field k v)
  | and_field {n} (k : String) {v} :
      Reachable n → Reachable v → Reachable (n.and_field k v)
  | item (i : Nat) {v} : Reachable v → Reachable (ValidationNode.item i v)
  | and_item {n} (i : Nat) {v} :
      Reachable n → Reachable v → Reachable (n.and_item i v)
  | fieldsOf {K V : Type} [ToString K] (l : List (K × V))
      (f : K → V → ValidationNode) :
      (∀ kv ∈ l, Reachable (f kv.1 kv.2)) →
      Reachable (ValidationNode.fieldsOf l f)
  | and_fields {K V : Type} [ToString K] {n} (l : List (K × V))
      (f : K → V → ValidationNode) :
      Reachable n → (∀ kv ∈ l, Reachable (f kv.1 kv.2)) →
      Reachable (n.and_fields l f)
  | itemsOf {T : Type} (l : List T) (f : Nat → T → ValidationNode) :
      (∀ iv ∈ l.enum, Reachable (f iv.1 iv.2)) →
      Reachable (ValidationNode.itemsOf l f)
  | and_items {T : Type} {n} (l : List T) (f : Nat → T → ValidationNode) :
      Reachable n → (∀ iv ∈ l.enum, Reachable (f iv.1 iv.2)) →
      Reachable (n.and_items l f)
  | merge {a b} : Reachable a → Reachable b → Reachable (a.merge b)
  | first {n} : Reachable n → Reachable n.first

theorem reachable_pruned {n : ValidationNode} (h : Reachable n) :
    Prunedb n = true := by
  induction h with
  | ok => exact pruned_no_children []
  | error e => exact pruned_no_children [e]
  | error_if c f => exact pruned_no_children _
  | errorsOf l => exact pruned_no_children l
  | and_error e _ ih =>
    rename_i n _
    obtain ⟨e', fs, its⟩ := n
    rw [ValidationNode.and_error]
    rw [← pruned_errors_irrelevant e' _ _ _] at *
    exact ih
  | and_error_if c f _ ih =>
    rename_i n _
    rw [ValidationNode.and_error_if]
    by_cases hc : c
    · obtain ⟨e', fs, its⟩ := n
      simp only [hc, if_true]
      rw [ValidationNode.and_error]
      rw [← pruned_errors_irrelevant e' _ _ _] at *
      exact ih
    · simp only [hc, if_false]
      exact ih
  | and_errors l _ ih =>
    rename_i n _
    obtain ⟨e', fs, its⟩ := n
    rw [ValidationNode.and_errors]
    rw [← pruned_errors_irrelevant e' _ _ _] at *
    exact ih
  | field k _ ih => exact pruned_field k ih
  | and_field k _ _ ihn ihv => exact pruned_and_field k ihn ihv
  | item i _ ih => exact pruned_item i ih
  | and_item i _ _ ihn ihv => exact pruned_and_item i ihn ihv
  | fieldsOf l f _ ih => exact pruned_fieldsOf l f ih
  | and_fields l f _ _ ihn ih =>
    rw [ValidationNode.and_fields, ValidationNode.merge]
    exact mergeNode_pruned _ _ ihn (pruned_fieldsOf l f ih)
  | itemsOf l f _ ih => exact pruned_itemsOf l f ih
  | and_items l f _ _ ihn ih =>
    rw [ValidationNode.and_items, ValidationNode.merge]
    exact mergeNode_pruned _ _ ihn (pruned_itemsOf l f ih)
  | merge _ _ iha ihb =>
    rw [ValidationNode.merge]
    exact mergeNode_pruned _ _ iha ihb
  | first _ ih => exact first_pruned ih

/-! ### Parameter-value escaping: the claim's reading versus the code. -/

/-- Modelled from the claim's words for C9: a string is double-quoted
with only control characters (standard escaping) and the quote character
itself escaped, and no other characters escaped. -/
def claimStringRender (s : String) : String :=
  "\"" ++
    String.join (s.data.map fun c =>
      if c.toNat < 0x20 then charEscapeDefault c
      else if c = '"' then "\\\""
      else String.singleton c) ++
  "\""

/-- The escaping Rust `escape_default` actually performs, regrouped by
character class: control characters print as `\t`/`\n`/`\r` or a
`\u{...}` escape, both quote characters and the backslash get a
backslash escape, other printable ASCII is verbatim, and every
character above 0x7e becomes a `\u{...}` escape. -/
def amendedEscapeChar (c : Char) : String :=
  if c.toNat < 0x20 then
    if c = '\t' then "\\t"
    else if c = '\n' then "\\n"
    else if c = '\r' then "\\r"
    else "\\u\x7b" ++ hexLower c.toNat ++ "\x7d"
  else if c = '\'' ∨ c = '"' then "\\" ++ String.singleton c
  else if c = '\\' then "\\\\"
  else if c.toNat ≤ 0x7e then String.singleton c
  else "\\u\x7b" ++ hexLower c.toNat ++ "\x7d"

theorem amendedEscapeChar_eq (c : Char) :
    charEscapeDefault c = amendedEscapeChar c := by
  by_cases h1 : c = '\t'
  · subst h1; decide
  by_cases h2 : c = '\r'
  · subst h2; decide
  by_cases h3 : c = '\n'
  · subst h3; decide
  by_cases h4 : c = '\\'
  · subst h4; decide
  by_cases h5 : c = '\''
  · subst h5; decide
  by_cases h6 : c = '"'
  · subst h6; decide
  rw [charEscapeDefault, if_neg h1, if_neg h2, if_neg h3, if_neg h4,
    if_neg h5, if_neg h6, amendedEscapeChar]
  by_cases hlow : c.toNat < 0x20
  · rw [if_pos hlow, if_neg h1, if_neg h3, if_neg h2,
      if_neg (fun hc : 0x20 ≤ c.toNat ∧ c.toNat ≤ 0x7e => absurd hc.1 (by omega))]
  · have hge : 0x20 ≤ c.toNat := by omega
    rw [if_neg hlow,
      if_neg (fun hc : c = '\'' ∨ c = '"' => hc.elim h5 h6), if_neg h4]
    by_cases hhi : c.toNat ≤ 0x7e
    · rw [if_pos hhi, if_pos ⟨hge, hhi⟩]
    · rw [if_neg hhi,
        if_neg (fun hc : 0x20 ≤ c.toNat ∧ c.toNat ≤ 0x7e => hhi hc.2)]

/-- The parameter rendering per the amended wording: decimal numbers
and booleans, single-quoted chars and double-quoted strings escaped by
`amendedEscapeChar`, raw verbatim. -/
def amendedRenderParam : ParamValue → String
  | .Bool value => toString value
  | .I8 value => toString value
  | .I16 value => toString value
  | .I32 value => toString value
  | .I64 value => toString value
  | .I128 value => toString value
  | .U8 value => toString value
  | .U16 value => toString value
  | .U32 value => toString value
  | .U64 value => toString value
  | .U128 value => toString value
  | .Usize value => toString value
  | .Char value => "'" ++ amendedEscapeChar value ++ "'"
  | .String value => "\"" ++ String.join (value.data.map amendedEscapeChar) ++ "\""
  | .Raw value => value

theorem renderParamValue_eq_amended (p : ParamValue) :
    renderParamValue p = amendedRenderParam p := by
  have hf : charEscapeDefault = amendedEscapeChar :=
    funext amendedEscapeChar_eq
  cases p <;>
    simp [renderParamValue, amendedRenderParam, strEscapeDefault, hf]

/-! ### The claims. -/

/-- C1: merge is a monoid operation on validation trees: for all trees
`a`, `b`, `c` (well-formed, i.e. every `BTreeMap` in its sorted
representation — the invariant of every tree the Rust library builds),
`ok().merge(x)` is structurally equal to `x`, `x.merge(ok())` is
structurally equal to `x`, and `(a.merge(b)).merge(c)` equals
`a.merge(b.merge(c))` — same direct-error sequences at every node and
same field/item key sets and subtrees. -/
theorem C1_merge_monoid (a b c : ValidationNode) (ha : WFb a = true)
    (hb : WFb b = true) (hc : WFb c = true) :
    ValidationNode.ok.merge a = a ∧ a.merge ValidationNode.ok = a ∧
      (a.merge b).merge c = a.merge (b.merge c) := by
  refine ⟨?_, ?_, ?_⟩
  · rw [ValidationNode.merge]
    exact mergeNode_ok_left ha
  · rw [ValidationNode.merge]
    exact mergeNode_ok_right a
  · simp only [ValidationNode.merge]
    exact mergeNode_assoc ha hb hc

/-- C1 witness: the monoid laws at three concrete trees. -/
theorem C1_merge_monoid_witness :
    ValidationNode.ok.merge
        (ValidationNode.field "x"
          (ValidationNode.error (ValidationError.with_code "a"))) =
      ValidationNode.field "x"
        (ValidationNode.error (ValidationError.with_code "a")) ∧
    (ValidationNode.field "x"
        (ValidationNode.error (ValidationError.with_code "a"))).merge
      ValidationNode.ok =
      ValidationNode.field "x"
        (ValidationNode.error (ValidationError.with_code "a")) ∧
    ((ValidationNode.field "x"
        (ValidationNode.error (ValidationError.with_code "a"))).merge
          (ValidationNode.error (ValidationError.with_code "b"))).merge
        (ValidationNode.item 2
          (ValidationNode.error (ValidationError.with_code "c"))) =
      (ValidationNode.field "x"
        (ValidationNode.error (ValidationError.with_code "a"))).merge
        ((ValidationNode.error (ValidationError.with_code "b")).merge
          (ValidationNode.item 2
            (ValidationNode.error (ValidationError.with_code "c")))) :=
  C1_merge_monoid _ _ _
    (by simp [ValidationNode.field, ValidationNode.error,
      ValidationNode.is_ok, ValidationNode.errors, ValidationNode.fields,
      ValidationNode.items, WFb, WFbFields, WFbItems, keysSortedB,
      ValidationError.with_code])
    (by simp [ValidationNode.error, WFb, WFbFields, WFbItems, keysSortedB,
      ValidationError.with_code, ValidationNode.errors])
    (by simp [ValidationNode.item, ValidationNode.error,
      ValidationNode.is_ok, ValidationNode.errors, ValidationNode.fields,
      ValidationNode.items, WFb, WFbFields, WFbItems, keysSortedB,
      ValidationError.with_code])

/-- C2: every node reachable through the public combinators is pruned —
no ok child under any key at any depth — and attaching an ok child via
`field`/`and_field` never introduces the key: `field "x" ok = ok`,
`n.and_field "x" ok = n`, the result `is_ok`, and it has no key `"x"`. -/
theorem C2_pruned_invariant :
    (∀ n, Reachable n → Prunedb n = true) ∧
    ValidationNode.field "x" ValidationNode.ok = ValidationNode.ok ∧
    (∀ n : ValidationNode, n.and_field "x" ValidationNode.ok = n) ∧
    (ValidationNode.field "x" ValidationNode.ok).is_ok = true ∧
    lookupKV (ValidationNode.field "x" ValidationNode.ok).fields "x" = none := by
  refine ⟨fun n h => reachable_pruned h, rfl, fun n => rfl, rfl, rfl⟩

/-- C2 witness: a tree built by the combinators is pruned. -/
theorem C2_pruned_invariant_witness :
    Prunedb
      ((ValidationNode.ok.and_field "a"
        (ValidationNode.error (ValidationError.with_code "c"))).and_item 3
        (ValidationNode.error (ValidationError.with_code "d"))) = true :=
  C2_pruned_invariant.1 _
    (Reachable.and_item 3
      (Reachable.and_field "a" Reachable.ok (Reachable.error _))
      (Reachable.error _))

/-- C3: when `and_field` (or `and_item`) is called with a key that
already has a child, the existing and incoming subtrees are recursively
merged (existing side's direct errors first), not overwritten; in
particular `ok().and_field("a", error E1).and_field("a", error E2)` has
an `"a"` child with direct errors `[E1, E2]` and renders as the two
lines `".a: <E1>"` then `".a: <E2>"`, and likewise
`ok().and_item(5, error E1).and_item(5, error E2)` has a `5` child with
direct errors `[E1, E2]` and renders as `".[5]: <E1>"` then
`".[5]: <E2>"`. -/
theorem C3_merge_on_conflict :
    (∀ (n v ex : ValidationNode) (k : String), WFb n = true →
      v.is_ok = false → lookupKV n.fields k = some ex →
      lookupKV (n.and_field k v).fields k = some (mergeNode ex v)) ∧
    (∀ (n v ex : ValidationNode) (i : Nat), WFb n = true →
      v.is_ok = false → lookupKV n.items i = some ex →
      lookupKV (n.and_item i v).items i = some (mergeNode ex v)) ∧
    (∀ E1 E2 : ValidationError,
      (ValidationNode.ok.and_field "a" (ValidationNode.error E1)).and_field
          "a" (ValidationNode.error E2) =
        .mk [] [("a", .mk [E1, E2] [] [])] [] ∧
      display
        ((ValidationNode.ok.and_field "a" (ValidationNode.error E1)).and_field
          "a" (ValidationNode.error E2)) =
        ".a: " ++ fmtError E1 ++ "\n" ++ (".a: " ++ fmtError E2)) ∧
    (∀ E1 E2 : ValidationError,
      (ValidationNode.ok.and_item 5 (ValidationNode.error E1)).and_item
          5 (ValidationNode.error E2) =
        .mk [] [] [(5, .mk [E1, E2] [] [])] ∧
      display
        ((ValidationNode.ok.and_item 5 (ValidationNode.error E1)).and_item
          5 (ValidationNode.error E2)) =
        ".[5]: " ++ fmtError E1 ++ "\n" ++ (".[5]: " ++ fmtError E2)) := by
  refine ⟨?_, ?_, ?_, ?_⟩
  · intro n v ex k hwf hv hex
    obtain ⟨e, fs, its⟩ := n
    rw [WFb_mk_iff] at hwf
    rw [ValidationNode.and_field]
    simp only [hv, Bool.not_false, if_true, ValidationNode.fields] at *
    rw [insertField_eq, lookup_insertWith_self mergeNode k v hwf.2.1, hex]
  · intro n v ex i hwf hv hex
    obtain ⟨e, fs, its⟩ := n
    rw [WFb_mk_iff] at hwf
    rw [ValidationNode.and_item]
    simp only [hv, Bool.not_false, if_true, ValidationNode.items] at *
    rw [insertItem_eq, lookup_insertWith_self mergeNode i v hwf.2.2.1, hex]
  · intro E1 E2
    have hstep1 : ValidationNode.ok.and_field "a" (ValidationNode.error E1) =
        .mk [] [("a", .mk [E1] [] [])] [] := by
      rw [ValidationNode.and_field]
      simp [ValidationNode.error, ValidationNode.is_ok, ValidationNode.errors,
        ValidationNode.fields, ValidationNode.items, ValidationNode.ok,
        insertField]
    have hstep2 : (ValidationNode.mk [] [("a", .mk [E1] [] [])] []).and_field
        "a" (ValidationNode.error E2) =
        .mk [] [("a", .mk [E1, E2] [] [])] [] := by
      rw [ValidationNode.and_field]
      simp only [ValidationNode.error, ValidationNode.is_ok,
        ValidationNode.errors, ValidationNode.fields, ValidationNode.items,
        List.isEmpty_cons, Bool.false_and, Bool.not_false, if_true]
      rw [insertField, if_neg (lt_irrefl "a"), if_pos rfl, mergeNode_mk]
      simp [foldInsertWith]
    rw [hstep1, hstep2]
    refine ⟨rfl, ?_⟩
    rw [display_eq_joinLines]
    have hlines : linesSpec (.mk [] [("a", .mk [E1, E2] [] [])] []) [] =
        [pathSpec [PathElement.Name "a"] ++ ": " ++ errorDescSpec E1,
          pathSpec [PathElement.Name "a"] ++ ": " ++ errorDescSpec E2] := by
      simp [linesSpec, linesSpecFields, linesSpecItems]
    rw [hlines, ← fmtError_eq, ← fmtError_eq,
      show pathSpec [PathElement.Name "a"] = ".a" from by decide]
    rw [joinLines, joinLines]
    rw [show (".a" : String) ++ ": " = ".a: " from by decide]
  · intro E1 E2
    have hstep1 : ValidationNode.ok.and_item 5 (ValidationNode.error E1) =
        .mk [] [] [(5, .mk [E1] [] [])] := by
      rw [ValidationNode.and_item]
      simp [ValidationNode.error, ValidationNode.is_ok, ValidationNode.errors,
        ValidationNode.fields, ValidationNode.items, ValidationNode.ok,
        insertItem]
    have hstep2 : (ValidationNode.mk [] [] [(5, .mk [E1] [] [])]).and_item
        5 (ValidationNode.error E2) =
        .mk [] [] [(5, .mk [E1, E2] [] [])] := by
      rw [ValidationNode.and_item]
      simp only [ValidationNode.error, ValidationNode.is_ok,
        ValidationNode.errors, ValidationNode.fields, ValidationNode.items,
        List.isEmpty_cons, Bool.false_and, Bool.not_false, if_true]
      rw [insertItem, if_neg (lt_irrefl 5), if_pos rfl, mergeNode_mk]
      simp [foldInsertWith]
    rw [hstep1, hstep2]
    refine ⟨rfl, ?_⟩
    rw [display_eq_joinLines]
    have hlines : linesSpec (.mk [] [] [(5, .mk [E1, E2] [] [])]) [] =
        [pathSpec [PathElement.Index 5] ++ ": " ++ errorDescSpec E1,
          pathSpec [PathElement.Index 5] ++ ": " ++ errorDescSpec E2] := by
      simp [linesSpec, linesSpecFields, linesSpecItems]
    rw [hlines, ← fmtError_eq, ← fmtError_eq,
      show pathSpec [PathElement.Index 5] = ".[5]" from by decide]
    rw [joinLines, joinLines]
    rw [show (".[5]" : String) ++ ": " = ".[5]: " from by decide]

/-- C3 witness: the general merged-lookup facts at a concrete occupied
field key and a concrete occupied item index. -/
theorem C3_merge_on_conflict_witness :
    lookupKV
      ((ValidationNode.mk []
        [("a", ValidationNode.error (ValidationError.with_code "1"))]
        []).and_field "a"
          (ValidationNode.error (ValidationError.with_code "2"))).fields
      "a" =
      some (mergeNode (ValidationNode.error (ValidationError.with_code "1"))
        (ValidationNode.error (ValidationError.with_code "2"))) ∧
    lookupKV
      ((ValidationNode.mk [] []
        [(7, ValidationNode.error (ValidationError.with_code "1"))]).and_item
          7 (ValidationNode.error (ValidationError.with_code "2"))).items
      7 =
      some (mergeNode (ValidationNode.error (ValidationError.with_code "1"))
        (ValidationNode.error (ValidationError.with_code "2"))) :=
  ⟨C3_merge_on_conflict.1 _ _ _ "a"
    (by simp [ValidationNode.error, WFb, WFbFields, WFbItems, keysSortedB,
      ValidationError.with_code, ValidationNode.errors])
    (by simp [ValidationNode.error, ValidationNode.is_ok,
      ValidationNode.errors, ValidationNode.fields, ValidationNode.items])
    (by simp [ValidationNode.fields, lookupKV]),
  C3_merge_on_conflict.2.1 _ _ _ 7
    (by simp [ValidationNode.error, WFb, WFbFields, WFbItems, keysSortedB,
      ValidationError.with_code, ValidationNode.errors])
    (by simp [ValidationNode.error, ValidationNode.is_ok,
      ValidationNode.errors, ValidationNode.fields, ValidationNode.items])
    (by simp [ValidationNode.items, lookupKV])⟩

/-- C4: Display emits exactly one line per direct error, direct errors
first in stored order, then field subtrees then item subtrees
depth-first; each line is `<path>: <code>[: <message>][: k=v, k=v...]`
with params in ascending key order; lines are joined by single newlines
with no leading/trailing newline; an ok tree renders as ""; and on every
well-formed tree the stored field keys, item indices, and param keys are
strictly ascending, so the traversal is in ascending key order
independent of insertion order. -/
theorem C4_display_format :
    (∀ n, display n = joinLines (linesSpec n []) ∧
      (linesSpec n []).length = errorCount n) ∧
    display ValidationNode.ok = "" ∧
    (∀ n, WFb n = true →
      List.Pairwise (fun a b : String × ValidationNode => a.1 < b.1) n.fields ∧
      List.Pairwise (fun a b : Nat × ValidationNode => a.1 < b.1) n.items ∧
      ∀ err ∈ n.errors,
        List.Pairwise (fun a b : String × ParamValue => a.1 < b.1) err.params) := by
  refine ⟨fun n => ⟨display_eq_joinLines n, linesSpec_length n []⟩, ?_, ?_⟩
  · rw [show display ValidationNode.ok =
        joinLines (linesSpec ValidationNode.ok []) from
      display_eq_joinLines ValidationNode.ok]
    rw [show ValidationNode.ok = ValidationNode.mk [] [] [] from rfl,
      linesSpec, linesSpecFields, linesSpecItems]
    simp [joinLines]
  · intro n hwf
    obtain ⟨e, fs, its⟩ := n
    rw [WFb_mk_iff] at hwf
    obtain ⟨hp, hsf, hsi, _, _⟩ := hwf
    exact ⟨hsf, hsi, fun err he => (keysSortedB_iff _).mp (hp err he)⟩

/-- C4 witness: the ascending-keys part at a concrete well-formed tree. -/
theorem C4_display_format_witness :
    List.Pairwise (fun a b : String × ValidationNode => a.1 < b.1)
      (ValidationNode.mk []
        [("a", ValidationNode.error (ValidationError.with_code "1")),
          ("b", ValidationNode.error (ValidationError.with_code "2"))]
        []).fields ∧
    List.Pairwise (fun a b : Nat × ValidationNode => a.1 < b.1)
      (ValidationNode.mk []
        [("a", ValidationNode.error (ValidationError.with_code "1")),
          ("b", ValidationNode.error (ValidationError.with_code "2"))]
        []).items ∧
    ∀ err ∈ (ValidationNode.mk []
        [("a", ValidationNode.error (ValidationError.with_code "1")),
          ("b", ValidationNode.error (ValidationError.with_code "2"))]
        []).errors,
      List.Pairwise (fun a b : String × ParamValue => a.1 < b.1) err.params :=
  C4_display_format.2.2 _
    (by
      simp [ValidationNode.error, WFb, WFbFields, WFbItems, keysSortedB,
        ValidationError.with_code, ValidationNode.errors, String.lt_iff,
        decide_eq_true_eq]
      decide)

/-- C5: the empty path renders as "."; a field step renders as "." plus
the name verbatim when non-empty and all ASCII alphanumeric/underscore,
otherwise "." plus the double-quoted name with only internal quotes
escaped; an index step renders as "[i]" with a leading "." exactly when
it is the first element; steps concatenate outer to inner. -/
theorem C5_path_syntax :
    (∀ p, fmtPath p = pathSpec p) ∧
    fmtPath [] = "." ∧
    fmtPath [PathElement.Name "ab_1"] = ".ab_1" ∧
    fmtPath [PathElement.Name "a\"b"] = ".\"a\\\"b\"" ∧
    fmtPath [PathElement.Name "a.b"] = ".\"a.b\"" ∧
    fmtPath [PathElement.Name ""] = ".\"\"" ∧
    fmtPath [PathElement.Index 3] = ".[3]" ∧
    fmtPath [PathElement.Name "x", PathElement.Index 2, PathElement.Name "y"] =
      ".x[2].y" ∧
    fmtPath [PathElement.Index 0, PathElement.Index 1] = ".[0][1]" := by
  refine ⟨fmtPath_eq, ?_, ?_, ?_, ?_, ?_, ?_, ?_, ?_⟩ <;> decide

/-- C6: the serde serialization produces exactly one (path, description)
pair per direct error, in the text renderer's order: mapping
`(p, d) ↦ p ++ ": " ++ d` over the pairs yields exactly the display
lines, and the display text is those lines joined by newlines. -/
theorem C6_serialization_parity (n : ValidationNode) :
    (serializeElements n []).map (fun pr => pr.1 ++ ": " ++ pr.2) =
      linesSpec n [] ∧
    (serializeElements n []).length = errorCount n ∧
    display n = joinLines (linesSpec n []) :=
  ⟨serializeElements_map n [], serializeElements_length n [],
    display_eq_joinLines n⟩

/-- C7: `first()` keeps only the first direct error and drops fields and
items when direct errors exist; otherwise recurses into the lowest-key
field entry (dropping the rest and all items); otherwise into the
lowest-index item entry; otherwise returns ok — and under the BTreeMap
invariant the first stored entry is indeed the lowest key/index. -/
theorem C7_first_reduction :
    (∀ (e0 : ValidationError) (erest : List ValidationError) fs its,
      (ValidationNode.mk (e0 :: erest) fs its).first = .mk [e0] [] []) ∧
    (∀ (k : String) (v : ValidationNode) frest its,
      (ValidationNode.mk [] ((k, v) :: frest) its).first =
        .mk [] [(k, v.first)] []) ∧
    (∀ (i : Nat) (v : ValidationNode) irest,
      (ValidationNode.mk [] [] ((i, v) :: irest)).first =
        .mk [] [] [(i, v.first)]) ∧
    ValidationNode.ok.first = ValidationNode.ok ∧
    (∀ (k : String) (v : ValidationNode) frest its,
      WFb (ValidationNode.mk [] ((k, v) :: frest) its) = true →
      ∀ kv ∈ frest, k < kv.1) ∧
    (∀ (i : Nat) (v : ValidationNode) irest,
      WFb (ValidationNode.mk [] [] ((i, v) :: irest)) = true →
      ∀ kv ∈ irest, i < kv.1) := by
  refine ⟨?_, ?_, ?_, ?_, ?_, ?_⟩
  · intro e0 erest fs its
    rw [ValidationNode.first]
  · intro k v frest its
    rw [ValidationNode.first]
  · intro i v irest
    rw [ValidationNode.first]
  · rfl
  · intro k v frest its hwf
    rw [WFb_mk_iff] at hwf
    have := hwf.2.1
    rw [SortedKeys, List.pairwise_cons] at this
    exact fun kv hkv => this.1 kv hkv
  · intro i v irest hwf
    rw [WFb_mk_iff] at hwf
    have := hwf.2.2.1
    rw [SortedKeys, List.pairwise_cons] at this
    exact fun kv hkv => this.1 kv hkv

/-- C7 witness: the reduction and the lowest-key fact on concrete
trees — in particular direct root errors `[E1, E2]` plus field/item
children reduce to only `[E1]`. -/
theorem C7_first_reduction_witness :
    (ValidationNode.mk
        [ValidationError.with_code "E1", ValidationError.with_code "E2"]
        [("f", ValidationNode.error (ValidationError.with_code "E3"))]
        [(0, ValidationNode.error (ValidationError.with_code "E4"))]).first =
      .mk [ValidationError.with_code "E1"] [] [] ∧
    ∀ kv ∈ [("b", ValidationNode.error (ValidationError.with_code "2"))],
      "a" < kv.1 :=
  ⟨C7_first_reduction.1 _ _ _ _,
    C7_first_reduction.2.2.2.2.1 "a"
      (ValidationNode.error (ValidationError.with_code "1"))
      [("b", ValidationNode.error (ValidationError.with_code "2"))] []
      (by
        simp [ValidationNode.error, WFb, WFbFields, WFbItems, keysSortedB,
          ValidationError.with_code, ValidationNode.errors, String.lt_iff,
          decide_eq_true_eq]
        decide)⟩

/-- C8: `error_if`/`and_error_if` are lazy in the error builder: with a
false condition they return `ok()`/`self` and, in the explicit
state-passing embedding of the `FnOnce` closure, leave the state
untouched (the closure is never invoked); with a true condition they
equal `error(f())`/`and_error(f())` and the final state is that of
exactly one invocation of `f`. -/
theorem C8_lazy_error_if :
    (∀ f : Unit → ValidationError,
      ValidationNode.error_if false f = ValidationNode.ok) ∧
    (∀ (n : ValidationNode) (f : Unit → ValidationError),
      n.and_error_if false f = n) ∧
    (∀ f : Unit → ValidationError,
      ValidationNode.error_if true f = ValidationNode.error (f ())) ∧
    (∀ (n : ValidationNode) (f : Unit → ValidationError),
      n.and_error_if true f = n.and_error (f ())) ∧
    (∀ (σ : Type) (f : σ → ValidationError × σ) (s : σ) (c : Bool),
      errorIfEff c f s =
        (if c then (ValidationNode.error (f s).1, (f s).2)
          else (ValidationNode.ok, s)) ∧
      ∀ n : ValidationNode, andErrorIfEff n c f s =
        (if c then (n.and_error (f s).1, (f s).2) else (n, s))) := by
  refine ⟨fun f => rfl, fun n f => rfl, fun f => rfl, fun n f => rfl, ?_⟩
  intro σ f s c
  constructor
  · cases c <;> simp [errorIfEff, ValidationNode.error, ValidationNode.ok]
  · intro n
    cases c <;> simp [andErrorIfEff]

/-- C9 counterexample: a backslash is neither a control character nor
the quote character, yet `ParamValue::String("\\")` renders with the
backslash escaped — the claim's "only control characters and the quote
character escaped" rendering differs at this input (and a backslash
char parameter likewise renders escaped). -/
theorem C9_param_rendering_counterexample :
    renderParamValue (ParamValue.String "\\") ≠ claimStringRender "\\" ∧
    renderParamValue (ParamValue.String "\\") = "\"\\\\\"" ∧
    claimStringRender "\\" = "\"\\\"" ∧
    renderParamValue (ParamValue.Char '\\') = "'\\\\'" := by
  refine ⟨?_, ?_, ?_, ?_⟩ <;> decide

/-- C9 amended: every modelled ParamValue prints canonically — booleans
and numbers in literal decimal form, a char single-quoted and a string
double-quoted with Rust `escape_default` escaping (control characters
as `\t`/`\n`/`\r` or `\u{...}`, both quote characters and the backslash
backslash-escaped, non-ASCII and other non-printable characters as
lowercase-hex `\u{...}`), and Raw verbatim with no escaping. -/
theorem C9_param_rendering_amended :
    (∀ p, renderParamValue p = amendedRenderParam p) ∧
    (∀ b : Bool, renderParamValue (ParamValue.Bool b) = toString b) ∧
    (∀ i : Int, renderParamValue (ParamValue.I64 i) = toString i) ∧
    (∀ m : Nat, renderParamValue (ParamValue.U64 m) = toString m) ∧
    (∀ s : String, renderParamValue (ParamValue.Raw s) = s) :=
  ⟨renderParamValue_eq_amended, fun _ => rfl, fun _ => rfl, fun _ => rfl,
    fun _ => rfl⟩

/-- C10: on every pruned tree (the invariant of all combinator-built
trees), if the tree is err then `first()` is an err tree containing
exactly one direct error in total, and if it is ok then `first()` is
`ok()`. -/
theorem C10_first_exactly_one (n : ValidationNode) (hp : Prunedb n = true) :
    (n.is_err = true → errorCount n.first = 1 ∧ n.first.is_err = true) ∧
    (n.is_ok = true → n.first = ValidationNode.ok) := by
  have h := first_spec n hp
  refine ⟨?_, h.2⟩
  intro herr
  rw [ValidationNode.is_err, Bool.not_eq_true'] at herr
  obtain ⟨h1, _, h3⟩ := h.1 herr
  refine ⟨h3, ?_⟩
  rw [ValidationNode.is_err, h1]
  rfl

/-- C10 witness: a concrete pruned err tree reduces to exactly one
error. -/
theorem C10_first_exactly_one_witness :
    errorCount (ValidationNode.mk []
      [("a", ValidationNode.mk [ValidationError.with_code "1",
        ValidationError.with_code "2"] [] [])] []).first = 1 ∧
    (ValidationNode.mk []
      [("a", ValidationNode.mk [ValidationError.with_code "1",
        ValidationError.with_code "2"] [] [])] []).first.is_err = true :=
  (C10_first_exactly_one _
      (by simp [Prunedb, PrunedbFields, PrunedbItems, ValidationNode.is_ok,
        ValidationNode.errors, ValidationNode.fields,
        ValidationNode.items])).1
    (by simp [ValidationNode.is_err, ValidationNode.is_ok,
      ValidationNode.errors, ValidationNode.fields, ValidationNode.items])




end NotSoFast
